import Mathlib

/-!
Verification of the LLM-council deliberation core (`backend/council/`):
voting (`voting.py`), consensus detection (`consensus.py`), ranking and
confidence parsing (`parsing.py`), chairman selection (`stages.py`),
hallucination auditing (`hallucination.py`) and orchestration
(`orchestration.py`).

Python values are embedded as follows: `dict` becomes an insertion-ordered
association list (`PyDict`), `float` arithmetic becomes exact rational
arithmetic over `ℚ` (with Python's banker's rounding `round(x, n)` embedded
as exact half-to-even rounding of the rational value), a Python value that
may be `None` becomes an `Option`, and a function that may raise becomes an
`Except String` computation.  Informational message strings (signal
descriptions, recommendation texts, consensus reasons) are not modelled;
all decision logic that feeds them is.
-/

/-! ## Python dictionaries as insertion-ordered association lists -/

/-- Python `dict` with `String` keys: an association list in insertion
order.  Lookups read the first occurrence of a key; `dictSet` updates the
first occurrence in place or appends, so dictionaries built from `[]` by
`dictSet` have distinct keys, as in Python. -/
abbrev PyDict (β : Type) : Type := List (String × β)

/-- Lookup `d.get(k)`: the value at the first occurrence of `k`, if any. -/
def dictGet? {β : Type} (d : PyDict β) (k : String) : Option β :=
  (d.find? (fun p => p.1 == k)).map (·.2)

/-- Lookup with default, `d.get(k, v)`. -/
def dictGetD {β : Type} (d : PyDict β) (k : String) (v : β) : β :=
  (dictGet? d k).getD v

/-- Membership test, `k in d`. -/
def dictMem {β : Type} (d : PyDict β) (k : String) : Bool :=
  (dictGet? d k).isSome

/-- Assignment `d[k] = v`: update the first occurrence of `k` in place,
or append a new entry. -/
def dictSet {β : Type} (d : PyDict β) (k : String) (v : β) : PyDict β :=
  match d with
  | [] => [(k, v)]
  | (k', v') :: rest => if k' == k then (k', v) :: rest else (k', v') :: dictSet rest k v

/-- Keys of a dictionary, in insertion order. -/
def dictKeys {β : Type} (d : PyDict β) : List String := d.map Prod.fst

/-- Values of a dictionary, in insertion order. -/
def dictValues {β : Type} (d : PyDict β) : List β := d.map Prod.snd

/-- Sum of all values of a dictionary. -/
def dictSumValues {β : Type} [AddCommMonoid β] (d : PyDict β) : β :=
  (d.map Prod.snd).sum

/-! ## Python `round` (banker's rounding), embedded exactly on `ℚ` -/

/-- Round a rational to the nearest integer, ties to the even integer
(Python's `round`). -/
def pyRoundInt (q : ℚ) : ℤ :=
  let f := Rat.floor q
  let r := q - f
  if r < 1/2 then f
  else if 1/2 < r then f + 1
  else if Even f then f else f + 1

/-- Python `round(q, n)`: round to `n` decimal digits, ties to even. -/
def pyRound (q : ℚ) (n : ℕ) : ℚ :=
  (pyRoundInt (q * 10 ^ n) : ℚ) / 10 ^ n

/-! ## Data model -/

/-- One Stage-2 ranking record (`stage2_results` element).  The
`confidence`-style optional dict keys are modelled with `Option`;
`parsed_ranking` defaults to `[]` exactly as `r.get("parsed_ranking", [])`
does.  `rubric_scores` maps a label to a criterion-score dictionary. -/
structure RankingRecord where
  model : Option String := none
  evaluator_model : Option String := none
  parsed_ranking : List String := []
  rubric_scores : PyDict (PyDict ℤ) := []
deriving DecidableEq

/-- One Stage-1 result.  `confidence` distinguishes a missing dict key
(`none`) from a key stored with value `None` (`some none`) from an integer
value (`some (some c)`), because `r.get("confidence", 0)` and
`r.get("confidence")` treat the first two differently. -/
structure Stage1Result where
  model : String
  response : String := ""
  confidence : Option (Option ℤ) := none
deriving DecidableEq

/-- One aggregate-ranking entry.  The voting methods return dictionaries
with method-specific keys; an `Option` field being `some` means the key is
present. -/
structure AggEntry where
  model : String
  borda_score : Option ℤ := none
  normalized_score : Option ℚ := none
  rankings_count : Option ℕ := none
  average_rank : Option ℚ := none
  mrr_score : Option ℚ := none
  reciprocal_sum : Option ℚ := none
  weighted_score : Option ℚ := none
  raw_score : Option ℚ := none
  avg_position : Option ℚ := none
  confidence_boost : Option ℚ := none
deriving DecidableEq

instance : Inhabited AggEntry := ⟨{ model := "" }⟩

/-- Stable descending insertion of `e` into a descending-sorted list:
`e` goes after every element with a strictly greater key and before the
first element with an equal or smaller key. -/
def pyInsertDesc {α κ : Type} [LinearOrder κ] (key : α → κ) (e : α) :
    List α → List α
  | [] => [e]
  | x :: xs => if key e < key x then x :: pyInsertDesc key e xs else e :: x :: xs

/-- Stable descending sort by key — the embedding of Python's stable
`list.sort(key=..., reverse=True)`: a stable sort is determined uniquely
by the key order, so insertion sort computes the same list as timsort. -/
def pySortDesc {α κ : Type} [LinearOrder κ] (key : α → κ) : List α → List α
  | [] => []
  | x :: xs => pyInsertDesc key x (pySortDesc key xs)

/-- Stable ascending insertion of `e`. -/
def pyInsertAsc {α κ : Type} [LinearOrder κ] (key : α → κ) (e : α) :
    List α → List α
  | [] => [e]
  | x :: xs => if key x < key e then x :: pyInsertAsc key e xs else e :: x :: xs

/-- Stable ascending sort by key — the embedding of Python's stable
`list.sort(key=...)`. -/
def pySortAsc {α κ : Type} [LinearOrder κ] (key : α → κ) : List α → List α
  | [] => []
  | x :: xs => pyInsertAsc key x (pySortAsc key xs)

/-- Stable sort of the aggregate list by a numeric key, descending
(Python `list.sort(key=..., reverse=True)`; both are stable). -/
def pySortDescBy (key : AggEntry → ℚ) (l : List AggEntry) : List AggEntry :=
  pySortDesc key l

/-- Stable sort of the aggregate list by a numeric key, ascending
(Python `list.sort(key=...)`). -/
def pySortAscBy (key : AggEntry → ℚ) (l : List AggEntry) : List AggEntry :=
  pySortAsc key l

/-! ## `voting.py` — Borda count -/

/-- Inner loop of `calculate_borda_count`: walk one parsed ranking with
0-indexed positions, crediting `num_candidates - position` points and one
vote to the model of every label found in `label_to_model`. -/
def bordaRecordStep (numCandidates : ℤ) (labelToModel : PyDict String)
    (acc : PyDict ℤ × PyDict ℕ) : List (ℕ × String) → PyDict ℤ × PyDict ℕ
  | [] => acc
  | (position, label) :: rest =>
    match dictGet? labelToModel label with
    | some modelName =>
      let points := numCandidates - position
      bordaRecordStep numCandidates labelToModel
        (dictSet acc.1 modelName (dictGetD acc.1 modelName 0 + points),
         dictSet acc.2 modelName (dictGetD acc.2 modelName 0 + 1)) rest
    | none => bordaRecordStep numCandidates labelToModel acc rest

/-- Outer loop of `calculate_borda_count` over all Stage-2 records. -/
def bordaTally (numCandidates : ℤ) (labelToModel : PyDict String)
    (acc : PyDict ℤ × PyDict ℕ) : List RankingRecord → PyDict ℤ × PyDict ℕ
  | [] => acc
  | r :: rest =>
    bordaTally numCandidates labelToModel
      (bordaRecordStep numCandidates labelToModel acc r.parsed_ranking.enum) rest

/-- Row built by `calculate_borda_count` for one `(model, score)` pair of
the score dictionary. -/
def bordaEntry (num_candidates max_possible : ℤ) (model_votes : PyDict ℕ)
    (p : String × ℤ) : AggEntry :=
  { model := p.1
    borda_score := some p.2
    normalized_score :=
      some (pyRound (if 0 < max_possible then (p.2 : ℚ) / (max_possible : ℚ) else 0) 3)
    rankings_count := some (dictGetD model_votes p.1 0)
    average_rank :=
      some (if 0 < dictGetD model_votes p.1 0 then
              pyRound ((num_candidates + 1 : ℚ) -
                (p.2 : ℚ) / ((dictGetD model_votes p.1 0 : ℕ) : ℚ)) 2
            else (num_candidates : ℚ)) }

/-- Unsorted aggregate list of `calculate_borda_count`. -/
def bordaAggregate (stage2_results : List RankingRecord)
    (label_to_model : PyDict String) : List AggEntry :=
  let num_candidates : ℤ := label_to_model.length
  let tally := bordaTally num_candidates label_to_model ([], []) stage2_results
  tally.1.map
    (bordaEntry num_candidates (num_candidates * stage2_results.length) tally.2)

/-- Embedding of `calculate_borda_count` (voting.py lines 9-64).  The
unused `stage1_results` argument is kept for call-shape fidelity. -/
def calculate_borda_count (stage2_results : List RankingRecord)
    (label_to_model : PyDict String)
    (stage1_results : Option (List Stage1Result) := none) : List AggEntry :=
  let _ := stage1_results
  pySortDescBy (fun e => ((e.borda_score.getD 0 : ℤ) : ℚ))
    (bordaAggregate stage2_results label_to_model)

/-! ## `voting.py` — Mean reciprocal rank -/

/-- Inner loop of `calculate_mrr`: positions are 1-indexed
(`enumerate(parsed, start=1)`); each found label credits `1/position`. -/
def mrrRecordStep (labelToModel : PyDict String)
    (acc : PyDict ℚ × PyDict ℕ) : List (ℕ × String) → PyDict ℚ × PyDict ℕ
  | [] => acc
  | (idx, label) :: rest =>
    match dictGet? labelToModel label with
    | some modelName =>
      mrrRecordStep labelToModel
        (dictSet acc.1 modelName (dictGetD acc.1 modelName 0 + 1 / ((idx : ℚ) + 1)),
         dictSet acc.2 modelName (dictGetD acc.2 modelName 0 + 1)) rest
    | none => mrrRecordStep labelToModel acc rest

/-- Outer loop of `calculate_mrr` over all Stage-2 records. -/
def mrrTally (labelToModel : PyDict String)
    (acc : PyDict ℚ × PyDict ℕ) : List RankingRecord → PyDict ℚ × PyDict ℕ
  | [] => acc
  | r :: rest =>
    mrrTally labelToModel
      (mrrRecordStep labelToModel acc r.parsed_ranking.enum) rest

/-- Row built by `calculate_mrr` for one `(model, reciprocal-sum)` pair. -/
def mrrEntry (numRecords numCandidates : ℕ) (model_votes : PyDict ℕ)
    (p : String × ℚ) : AggEntry :=
  let mrr : ℚ := if numRecords = 0 then 0 else p.2 / (numRecords : ℚ)
  { model := p.1
    mrr_score := some (pyRound mrr 3)
    reciprocal_sum := some (pyRound p.2 3)
    rankings_count := some (dictGetD model_votes p.1 0)
    average_rank :=
      some (if 0 < mrr then pyRound (1 / mrr) 2 else (numCandidates : ℚ)) }

/-- Unsorted aggregate list of `calculate_mrr`. -/
def mrrAggregate (stage2_results : List RankingRecord)
    (label_to_model : PyDict String) : List AggEntry :=
  let tally := mrrTally label_to_model ([], []) stage2_results
  tally.1.map (mrrEntry stage2_results.length label_to_model.length tally.2)

/-- Embedding of `calculate_mrr` (voting.py lines 67-113). -/
def calculate_mrr (stage2_results : List RankingRecord)
    (label_to_model : PyDict String)
    (stage1_results : Option (List Stage1Result) := none) : List AggEntry :=
  let _ := stage1_results
  pySortDescBy (fun e => e.mrr_score.getD 0)
    (mrrAggregate stage2_results label_to_model)

/-! ## `voting.py` — Confidence-weighted rankings -/

/-- Confidence map used by `calculate_confidence_weighted_rankings`: each
Stage-1 model's confidence, defaulting to 5 when the value is missing or
`None`. -/
def cwConfidenceMap (stage1_results : List Stage1Result) : PyDict ℚ :=
  stage1_results.foldl (fun cm r =>
    match r.confidence.join with
    | some conf => dictSet cm r.model (conf : ℚ)
    | none => dictSet cm r.model 5) []

/-- Inner loop of `calculate_confidence_weighted_rankings` over one parsed
ranking, with the evaluating model's weight fixed. -/
def cwRecordStep (numCandidates : ℤ) (labelToModel : PyDict String) (weight : ℚ)
    (acc : PyDict ℚ × PyDict ℚ × PyDict ℕ) :
    List (ℕ × String) → PyDict ℚ × PyDict ℚ × PyDict ℕ
  | [] => acc
  | (position, label) :: rest =>
    match dictGet? labelToModel label with
    | some modelName =>
      let raw_points : ℚ := ((numCandidates : ℚ) - position)
      cwRecordStep numCandidates labelToModel weight
        (dictSet acc.1 modelName (dictGetD acc.1 modelName 0 + raw_points * weight),
         dictSet acc.2.1 modelName (dictGetD acc.2.1 modelName 0 + raw_points),
         dictSet acc.2.2 modelName (dictGetD acc.2.2 modelName 0 + 1)) rest
    | none => cwRecordStep numCandidates labelToModel weight acc rest

/-- Outer loop of `calculate_confidence_weighted_rankings`: each record is
weighted by `0.5 + voter_confidence / 10`, the voter defaulting to
confidence 5 when absent from the confidence map. -/
def cwTally (numCandidates : ℤ) (labelToModel : PyDict String)
    (confidenceMap : PyDict ℚ)
    (acc : PyDict ℚ × PyDict ℚ × PyDict ℕ) :
    List RankingRecord → PyDict ℚ × PyDict ℚ × PyDict ℕ
  | [] => acc
  | r :: rest =>
    let voter_model := r.model.getD ""
    let voter_confidence := dictGetD confidenceMap voter_model 5
    let weight : ℚ := 1/2 + voter_confidence / 10
    cwTally numCandidates labelToModel confidenceMap
      (cwRecordStep numCandidates labelToModel weight acc r.parsed_ranking.enum) rest

/-- Row built by `calculate_confidence_weighted_rankings` for one
`(model, weighted-score)` pair. -/
def cwEntry (num_candidates : ℤ) (model_raw_scores : PyDict ℚ)
    (model_votes : PyDict ℕ) (p : String × ℚ) : AggEntry :=
  let raw := dictGetD model_raw_scores p.1 0
  let votes := dictGetD model_votes p.1 0
  { model := p.1
    weighted_score := some (pyRound p.2 2)
    raw_score := some raw
    confidence_boost := some (pyRound (p.2 - raw) 2)
    rankings_count := some votes
    average_rank :=
      some (if 0 < votes then
              pyRound ((num_candidates + 1 : ℚ) - raw / (votes : ℚ)) 2
            else (num_candidates : ℚ)) }

/-- Unsorted aggregate list of `calculate_confidence_weighted_rankings`. -/
def cwAggregate (stage2_results : List RankingRecord)
    (label_to_model : PyDict String)
    (stage1_results : List Stage1Result) : List AggEntry :=
  let num_candidates : ℤ := label_to_model.length
  let tally := cwTally num_candidates label_to_model (cwConfidenceMap stage1_results)
    ([], [], []) stage2_results
  tally.1.map (cwEntry num_candidates tally.2.1 tally.2.2)

/-- Embedding of `calculate_confidence_weighted_rankings`
(voting.py lines 116-192). -/
def calculate_confidence_weighted_rankings (stage2_results : List RankingRecord)
    (label_to_model : PyDict String)
    (stage1_results : List Stage1Result) : List AggEntry :=
  pySortDescBy (fun e => e.weighted_score.getD 0)
    (cwAggregate stage2_results label_to_model stage1_results)

/-! ## `voting.py` — Simple average rank -/

/-- Inner loop of `_calculate_simple_average`: append each 1-indexed
position of a found label to that model's position list. -/
def simpleRecordStep (labelToModel : PyDict String)
    (acc : PyDict (List ℕ)) : List (ℕ × String) → PyDict (List ℕ)
  | [] => acc
  | (idx, label) :: rest =>
    match dictGet? labelToModel label with
    | some modelName =>
      simpleRecordStep labelToModel
        (dictSet acc modelName (dictGetD acc modelName [] ++ [idx + 1])) rest
    | none => simpleRecordStep labelToModel acc rest

/-- Outer loop of `_calculate_simple_average` over all Stage-2 records. -/
def simpleTally (labelToModel : PyDict String)
    (acc : PyDict (List ℕ)) : List RankingRecord → PyDict (List ℕ)
  | [] => acc
  | r :: rest =>
    simpleTally labelToModel
      (simpleRecordStep labelToModel acc r.parsed_ranking.enum) rest

/-- Row built by `_calculate_simple_average` for one
`(model, positions)` pair. -/
def simpleEntry (p : String × List ℕ) : AggEntry :=
  { model := p.1
    average_rank := some (pyRound ((p.2.sum : ℚ) / (p.2.length : ℚ)) 2)
    rankings_count := some p.2.length }

/-- Unsorted aggregate list of `_calculate_simple_average`: models with a
non-empty position list (membership in the dictionary already implies at
least one recorded position, and the source additionally guards on it). -/
def simpleAggregate (stage2_results : List RankingRecord)
    (label_to_model : PyDict String) : List AggEntry :=
  (simpleTally label_to_model [] stage2_results).foldr (fun p acc =>
    if p.2.isEmpty then acc else simpleEntry p :: acc) []

/-- Embedding of `_calculate_simple_average` (voting.py lines 195-221). -/
def calculate_simple_average (stage2_results : List RankingRecord)
    (label_to_model : PyDict String) : List AggEntry :=
  pySortAscBy (fun e => e.average_rank.getD 0)
    (simpleAggregate stage2_results label_to_model)

/-! ## `voting.py` — Dispatcher -/

/-- Embedding of `calculate_aggregate_rankings` (voting.py lines 224-254):
dispatch on the method name, falling back to Borda for
`confidence_weighted` without Stage-1 results and to the simple average
for any unknown method name. -/
def calculate_aggregate_rankings (stage2_results : List RankingRecord)
    (label_to_model : PyDict String)
    (stage1_results : Option (List Stage1Result) := none)
    (method : String := "borda") : List AggEntry :=
  if method == "borda" then
    calculate_borda_count stage2_results label_to_model stage1_results
  else if method == "mrr" then
    calculate_mrr stage2_results label_to_model stage1_results
  else if method == "confidence_weighted" then
    match stage1_results with
    | none => calculate_borda_count stage2_results label_to_model
    | some s1 => calculate_confidence_weighted_rankings stage2_results label_to_model s1
  else
    calculate_simple_average stage2_results label_to_model

/-! ## `consensus.py` — Consensus detection -/

/-- Result record of `detect_consensus`.  `agreement_score` is the exact
rational standing for the returned float. -/
structure ConsensusResult where
  has_consensus : Bool
  agreement_score : ℚ
  top_model : Option String
  top_votes : ℕ
  total_voters : ℕ
  early_exit_eligible : Bool
deriving DecidableEq

/-- First-place tally of `detect_consensus`: one vote for the head of each
non-empty parsed ranking, plus the voter count. -/
def firstPlaceTally (acc : PyDict ℕ × ℕ) : List RankingRecord → PyDict ℕ × ℕ
  | [] => acc
  | r :: rest =>
    match r.parsed_ranking with
    | [] => firstPlaceTally acc rest
    | first_choice :: _ =>
      firstPlaceTally
        (dictSet acc.1 first_choice (dictGetD acc.1 first_choice 0 + 1), acc.2 + 1) rest

/-- Python `max(d, key=d.get)` over a dictionary: the first key attaining
the maximal value (`none` on an empty dictionary, where Python raises). -/
def dictMaxByValue (d : PyDict ℕ) : Option (String × ℕ) :=
  d.foldl (fun best p =>
    match best with
    | none => some p
    | some b => if b.2 < p.2 then some p else some b) none

/-- Embedding of `detect_consensus` (consensus.py lines 6-58). -/
def detect_consensus (stage2_results : List RankingRecord)
    (label_to_model : PyDict String) : ConsensusResult :=
  if stage2_results.isEmpty then
    { has_consensus := false, agreement_score := 0, top_model := none
      top_votes := 0, total_voters := 0, early_exit_eligible := false }
  else
    let tally := firstPlaceTally ([], 0) stage2_results
    let first_place_votes := tally.1
    let total_voters := tally.2
    if total_voters == 0 then
      { has_consensus := false, agreement_score := 0, top_model := none
        top_votes := 0, total_voters := 0, early_exit_eligible := false }
    else
      match dictMaxByValue first_place_votes with
      | none =>
        -- Unreachable: a positive voter count forces a non-empty tally.
        { has_consensus := false, agreement_score := 0, top_model := none
          top_votes := 0, total_voters := 0, early_exit_eligible := false }
      | some (top_label, top_votes) =>
        let agreement_score : ℚ := (top_votes : ℚ) / (total_voters : ℚ)
        { has_consensus := top_votes == total_voters && 1 < total_voters
          agreement_score := pyRound agreement_score 2
          top_model := dictGet? label_to_model top_label
          top_votes := top_votes
          total_voters := total_voters
          early_exit_eligible := 3/4 ≤ agreement_score }

/-- Result record of `check_stage1_consensus`; the free-text `reason`
field is not modelled. -/
structure Stage1Consensus where
  early_exit_possible : Bool
  high_confidence_model : Option String
  top_confidence : Option ℤ := none
  avg_other_confidence : Option ℚ := none
deriving DecidableEq

/-- Stable descending sort of (model, confidence) pairs by confidence
(`confidences.sort(key=lambda x: x[1], reverse=True)`). -/
def confSortDesc (l : List (String × ℤ)) : List (String × ℤ) :=
  pySortDesc Prod.snd l

/-- Embedding of `check_stage1_consensus` (consensus.py lines 61-112). -/
def check_stage1_consensus (stage1_results : List Stage1Result)
    (threshold : ℚ := 4/5) : Stage1Consensus :=
  let _ := threshold
  let confidences := stage1_results.filterMap (fun r =>
    (r.confidence.join).map (fun c => (r.model, c)))
  match confSortDesc confidences with
  | [] => { early_exit_possible := false, high_confidence_model := none }
  | (top_model, top_conf) :: others =>
    if 9 ≤ top_conf then
      let other_confs := others.map Prod.snd
      let avg_others : ℚ :=
        if other_confs.isEmpty then 0
        else ((other_confs.map (fun c => (c : ℚ))).sum) / (other_confs.length : ℚ)
      if 3 ≤ (top_conf : ℚ) - avg_others then
        { early_exit_possible := true
          high_confidence_model := some top_model
          top_confidence := some top_conf
          avg_other_confidence := some (pyRound avg_others 2) }
      else { early_exit_possible := false, high_confidence_model := none }
    else { early_exit_possible := false, high_confidence_model := none }

/-! ## `stages.py` — Chairman selection -/

/-- Statically configured chairman id (`config.py`). -/
def CHAIRMAN_MODEL : String := "anthropic/claude-opus-4"

/-- Key function `lambda x: x.get("confidence", 0)`: a missing key yields
the integer 0, a key stored with `None` yields Python `None`. -/
def chairmanConfKey (r : Stage1Result) : Option ℤ :=
  match r.confidence with
  | none => some 0
  | some v => v

/-- Python `max(xs, key=f)` folded left to right: the running best is
replaced exactly when the new key compares strictly greater; comparing
`None` with anything raises a `TypeError`, and an empty sequence raises a
`ValueError`. -/
def pyMaxGo (key : Stage1Result → Option ℤ) (best : Stage1Result) :
    List Stage1Result → Except String Stage1Result
  | [] => .ok best
  | y :: ys =>
    match key y, key best with
    | some a, some b => pyMaxGo key (if b < a then y else best) ys
    | _, _ => .error "TypeError: comparison with None"

/-- Python `max(xs, key=f)`. -/
def pyMax (key : Stage1Result → Option ℤ) :
    List Stage1Result → Except String Stage1Result
  | [] => .error "ValueError: max() arg is an empty sequence"
  | x :: xs => pyMaxGo key x xs

/-- Embedding of `select_rotating_chairman` (stages.py lines 474-504).
`randPick` stands for `random.choice(stage1_results)["model"]` in the
`random` branch. -/
def select_rotating_chairman (stage1_results : List Stage1Result)
    (aggregate_rankings : List AggEntry := [])
    (method : String := "top_ranked")
    (randPick : List Stage1Result → String := fun _ => "") : Except String String :=
  if method == "top_ranked" && !aggregate_rankings.isEmpty then
    .ok ((aggregate_rankings.headD default).model)
  else if method == "highest_confidence" then
    (pyMax chairmanConfKey stage1_results).map (·.model)
  else if method == "random" then
    .ok (randPick stage1_results)
  else
    .ok CHAIRMAN_MODEL

/-! ## `hallucination.py` — Hallucination detection -/

/-- One hallucination signal.  The free-text `description` and the
`evidence` bag are not modelled; `model`, `signal_type` and `severity`
carry all decision content. -/
structure HSignal where
  model : String
  signal_type : String
  severity : String
deriving DecidableEq

/-- Hallucination report (`HallucinationReport`); the recommendation
texts are not modelled. -/
structure HReport where
  has_concerns : Bool
  overall_confidence : ℚ
  signals : List HSignal
  model_scores : PyDict ℚ
deriving DecidableEq

/-- Reverse mapping `{v: k for k, v in label_to_model.items()}`: a dict
comprehension assigns left to right, so later pairs overwrite earlier
ones. -/
def modelToLabel (label_to_model : PyDict String) : PyDict String :=
  label_to_model.foldl (fun acc p => dictSet acc p.2 p.1) []

/-- Confidence map of `detect_hallucinations`: models whose Stage-1
`confidence` is present and not `None`. -/
def hallConfidenceMap (stage1_results : List Stage1Result) : PyDict ℚ :=
  stage1_results.foldl (fun acc r =>
    match r.confidence.join with
    | some c => dictSet acc r.model (c : ℚ)
    | none => acc) []

/-- Position map of `detect_hallucinations`, built from the aggregate
rankings: `item.get("average_rank", item.get("avg_position", 0))`. -/
def hallPositionMap (aggregate_rankings : List AggEntry) : PyDict ℚ :=
  aggregate_rankings.foldl (fun acc e =>
    dictSet acc e.model ((e.average_rank.or e.avg_position).getD 0)) []

/-- Evaluator used throughout `detect_hallucinations`:
`ranking.get("model", ranking.get("evaluator_model", ""))`. -/
def rankingEvaluator (r : RankingRecord) : String :=
  r.model.getD (r.evaluator_model.getD "")

/-- Per-evaluator rankings of `detect_hallucinations`: records with a
non-empty parsed ranking, keyed by evaluator. -/
def evaluatorRankings (stage2_results : List RankingRecord) : PyDict (List String) :=
  stage2_results.foldl (fun acc r =>
    if r.parsed_ranking.isEmpty then acc
    else dictSet acc (rankingEvaluator r) r.parsed_ranking) []

/-- Detection strategy 1 (confidence-ranking mismatch): one signal per
confidence-map entry that also has a peer position and whose normalized
mismatch exceeds `threshold / 10`. -/
def hallMismatchSignals (confidenceMap positionMap : PyDict ℚ)
    (numModels : ℕ) (threshold : ℚ) : List HSignal :=
  confidenceMap.foldr (fun p acc =>
    match dictGet? positionMap p.1 with
    | none => acc
    | some avg_rank =>
      let normalized_confidence := p.2 / 10
      let normalized_rank := ((numModels : ℚ) - avg_rank + 1) / (numModels : ℚ)
      let mismatch := normalized_confidence - normalized_rank
      if threshold / 10 < mismatch then
        { model := p.1
          signal_type := "confidence_mismatch"
          severity :=
            if 1/2 < mismatch then "high"
            else if 3/10 < mismatch then "medium" else "low" } :: acc
      else acc) []

/-- Detection strategy 2 (peer rejection) for one model: the fraction of
other evaluators who ranked the model's label last. -/
def hallRejectionSignal (evalRankings : PyDict (List String))
    (m2l : PyDict String) (threshold : ℚ) (model : String) : List HSignal :=
  match dictGet? m2l model with
  | none => []
  | some label =>
    if label == "" then []
    else
      let peers := evalRankings.filter (fun p => p.1 != model)
      let total_evaluators := peers.length
      let last_place_count :=
        (peers.filter (fun p => !p.2.isEmpty && p.2.getLast? == some label)).length
      if 0 < total_evaluators then
        let rejection_rate : ℚ := (last_place_count : ℚ) / (total_evaluators : ℚ)
        if threshold ≤ rejection_rate then
          [{ model := model
             signal_type := "peer_rejection"
             severity := if 9/10 ≤ rejection_rate then "high" else "medium" }]
        else []
      else []

/-- Rank positions of one model's label across the other evaluators
(1-indexed; evaluators not mentioning the label are skipped, as the
`ValueError` of `list.index` is caught). -/
def hallRankPositions (evalRankings : PyDict (List String))
    (label : String) (model : String) : List ℕ :=
  evalRankings.filterMap (fun p =>
    if p.1 == model then none
    else (p.2.indexOf? label).map (fun i => i + 1))

/-- Detection strategy 3 (outlier) for one model.  The source compares
`variance ** 0.5 >= threshold`; this is embedded without square roots as
`threshold ≤ 0 ∨ threshold ^ 2 ≤ variance`, which is equivalent since the
standard deviation is the nonnegative square root. -/
def hallOutlierSignal (evalRankings : PyDict (List String))
    (m2l : PyDict String) (threshold : ℚ) (model : String) : List HSignal :=
  match dictGet? m2l model with
  | none => []
  | some label =>
    if label == "" then []
    else
      let rank_positions := hallRankPositions evalRankings label model
      if 2 ≤ rank_positions.length then
        let mean_rank : ℚ := (rank_positions.sum : ℚ) / (rank_positions.length : ℚ)
        let variance : ℚ :=
          ((rank_positions.map (fun r => ((r : ℚ) - mean_rank) ^ 2)).sum) /
            (rank_positions.length : ℚ)
        if threshold ≤ 0 ∨ threshold ^ 2 ≤ variance then
          [{ model := model, signal_type := "outlier", severity := "medium" }]
        else []
      else []

/-- Detection strategy 4 (rubric accuracy) signals of one ranking record:
for each rated label mapped to a (truthy) model, a low accuracy sub-score
(`accuracy`, falling back to `factual_accuracy`) of at most 3 flags it. -/
def hallRubricSignalsOfRecord (label_to_model : PyDict String)
    (r : RankingRecord) : List HSignal :=
  if r.rubric_scores.isEmpty then []
  else
    r.rubric_scores.foldr (fun p acc =>
      match dictGet? label_to_model p.1 with
      | none => acc
      | some model =>
        if model == "" then acc
        else
          match ((dictGet? p.2 "accuracy").or (dictGet? p.2 "factual_accuracy") : Option ℤ) with
          | none => acc
          | some accuracy =>
            if accuracy ≤ 3 then
              { model := model
                signal_type := "low_accuracy_score"
                severity := if accuracy ≤ 2 then "medium" else "low" } :: acc
            else acc) []

/-- Detection strategy 4 over all ranking records. -/
def hallRubricSignals (label_to_model : PyDict String)
    (stage2_results : List RankingRecord) : List HSignal :=
  stage2_results.foldr (fun r acc => hallRubricSignalsOfRecord label_to_model r ++ acc) []

/-- Per-model reliability score: start from 1.0, deduct per signal against
the model by severity, add 0.1 for a top peer rank, clamp to [0, 1]. -/
def hallModelScore (signals : List HSignal) (positionMap : PyDict ℚ)
    (model : String) : ℚ :=
  let deducted := (signals.filter (fun s => s.model == model)).foldl
    (fun base s =>
      if s.severity == "high" then base - 3/10
      else if s.severity == "medium" then base - 3/20
      else base - 1/20) 1
  let boosted :=
    match dictGet? positionMap model with
    | some avg_rank => if avg_rank ≤ 3/2 then deducted + 1/10 else deducted
    | none => deducted
  max 0 (min 1 boosted)

/-- Embedding of `detect_hallucinations` (hallucination.py lines 56-308).
`thresholds` is the optional thresholds dictionary. -/
def detect_hallucinations (stage1_results : List Stage1Result)
    (stage2_results : List RankingRecord)
    (aggregate_rankings : List AggEntry)
    (label_to_model : PyDict String)
    (thresholds : Option (PyDict ℚ) := none) : HReport :=
  let th := thresholds.getD []
  let confidence_mismatch_threshold := dictGetD th "confidence_mismatch" 3
  let peer_rejection_threshold := dictGetD th "peer_rejection" (7/10)
  let rank_variance_threshold := dictGetD th "rank_variance" 2
  let m2l := modelToLabel label_to_model
  let confidence_map := hallConfidenceMap stage1_results
  let position_map := hallPositionMap aggregate_rankings
  let eval_rankings := evaluatorRankings stage2_results
  let num_models := stage1_results.length
  let stage1_models := stage1_results.map (·.model)
  let signals :=
    hallMismatchSignals confidence_map position_map num_models
      confidence_mismatch_threshold
    ++ (stage1_models.foldr (fun m acc =>
          hallRejectionSignal eval_rankings m2l peer_rejection_threshold m ++ acc) [])
    ++ (stage1_models.foldr (fun m acc =>
          hallOutlierSignal eval_rankings m2l rank_variance_threshold m ++ acc) [])
    ++ hallRubricSignals label_to_model stage2_results
  let model_scores := stage1_models.foldl (fun acc m =>
    dictSet acc m (hallModelScore signals position_map m)) []
  let has_concerns := signals.any (fun s => s.severity == "high" || s.severity == "medium")
  let overall_confidence :=
    if model_scores.isEmpty then 1/2
    else dictSumValues model_scores / (model_scores.length : ℚ)
  { has_concerns := has_concerns
    overall_confidence := overall_confidence
    signals := signals
    model_scores := model_scores }

/-! ## `parsing.py` — Character classes and Python string helpers -/

/-- Python `\s` on ASCII text: space, tab, newline, carriage return,
form feed, vertical tab. -/
def isPySpace (c : Char) : Bool :=
  c == ' ' || c == '\t' || c == '\n' || c == '\r' || c == '\x0b' || c == '\x0c'

/-- Python `\d` on ASCII text. -/
def isDigitCh (c : Char) : Bool := '0' ≤ c && c ≤ '9'

/-- ASCII lower-casing, as `re.IGNORECASE` applies it to ASCII letters. -/
def asciiLower (c : Char) : Char :=
  if 'A' ≤ c && c ≤ 'Z' then Char.ofNat (c.toNat + 32) else c

/-- Numeric value of a digit string (`int(...)` on a `\d+` group). -/
def digitsVal (ds : List Char) : ℕ :=
  ds.foldl (fun a c => 10 * a + (c.toNat - '0'.toNat)) 0

/-- Python `str.strip()`: remove leading and trailing whitespace. -/
def pyStrip (cs : List Char) : List Char :=
  ((cs.dropWhile isPySpace).reverse.dropWhile isPySpace).reverse

/-- Clamping `max(1, min(10, confidence))`. -/
def pyClamp (n : ℕ) : ℕ := max 1 (min 10 n)

/-! ## `parsing.py` — Confidence-suffix patterns

The four patterns of `parse_confidence_from_response` are embedded as
deterministic matchers.  Each regex is anchored at `$` with only greedy
pieces whose follow-sets are disjoint, except for the group `(\d+)`
immediately before the literal `10`, where the engine backtracks at most
two characters; that single backtracking case is materialised explicitly
(`case B` below). -/

/-- Consume `\*?\*?`: up to two leading asterisks.  (When three or more
asterisks are present the following literal fails on the remaining
asterisk, exactly as the regex would.) -/
def dropStars2 : List Char → List Char
  | '*' :: '*' :: rest => rest
  | '*' :: rest => rest
  | rest => rest

/-- Consume `:?`. -/
def dropColon : List Char → List Char
  | ':' :: rest => rest
  | rest => rest

/-- Case-insensitive literal match: consume `lit` (given lower-case)
from the input, comparing ASCII-lowered characters. -/
def lcMatch (lit : List Char) (cs : List Char) : Option (List Char) :=
  match lit, cs with
  | [], rest => some rest
  | _ :: _, [] => none
  | l :: lt, c :: ct => if asciiLower c == l then lcMatch lt ct else none

/-- Tail `\s*/?\s*10\s*$` after a fully consumed digit group. -/
def tailSlash10 (rest : List Char) : Bool :=
  let r1 := rest.dropWhile isPySpace
  let r2 := match r1 with
    | '/' :: t => t
    | t => t
  let r3 := r2.dropWhile isPySpace
  match r3 with
  | '1' :: '0' :: r4 => r4.all isPySpace
  | _ => false

/-- Digit group plus tail `(\d+)\s*/?\s*10\s*$`: either the tail follows
the maximal digit run (case A), or the run itself ends in `10` with only
whitespace after (case B, the backtracking case). -/
def digitGroup10 (cs : List Char) : Option ℕ :=
  let D := cs.takeWhile isDigitCh
  let rest := cs.dropWhile isDigitCh
  if D.isEmpty then none
  else if tailSlash10 rest then some (digitsVal D)
  else if 3 ≤ D.length && decide (D.drop (D.length - 2) = ['1', '0']) && rest.all isPySpace then
    some (digitsVal (D.take (D.length - 2)))
  else none

/-- Matcher for pattern 1, `\n*\*?\*?CONFIDENCE:?\*?\*?\s*(\d+)\s*/?\s*10\s*$`
(IGNORECASE), anchored at the current position and reaching the end of the
string; returns the numeric group. -/
def p1MatchAt (cs : List Char) : Option ℕ :=
  let s1 := cs.dropWhile (· == '\n')
  let s2 := dropStars2 s1
  match lcMatch ['c','o','n','f','i','d','e','n','c','e'] s2 with
  | none => none
  | some s3 =>
    let s4 := dropColon s3
    let s5 := dropStars2 s4
    let s6 := s5.dropWhile isPySpace
    digitGroup10 s6

/-- Matcher for pattern 2, `\n*\*?\*?Confidence:?\*?\*?\s*(\d+)\s*/?\s*10\s*$`:
under `re.IGNORECASE` it accepts exactly the strings of pattern 1. -/
def p2MatchAt (cs : List Char) : Option ℕ := p1MatchAt cs

/-- Matcher for pattern 3, `\n*\[CONFIDENCE:\s*(\d+)/10\]\s*$` (IGNORECASE). -/
def p3MatchAt (cs : List Char) : Option ℕ :=
  let s1 := cs.dropWhile (· == '\n')
  match lcMatch ['[','c','o','n','f','i','d','e','n','c','e',':'] s1 with
  | none => none
  | some s2 =>
    let s3 := s2.dropWhile isPySpace
    let D := s3.takeWhile isDigitCh
    let rest := s3.dropWhile isDigitCh
    if D.isEmpty then none
    else
      match rest with
      | '/' :: '1' :: '0' :: ']' :: r => if r.all isPySpace then some (digitsVal D) else none
      | _ => none

/-- Matcher for pattern 4, `\n*Confidence Score:\s*(\d+)/10\s*$` (IGNORECASE). -/
def p4MatchAt (cs : List Char) : Option ℕ :=
  let s1 := cs.dropWhile (· == '\n')
  match lcMatch ['c','o','n','f','i','d','e','n','c','e',' ','s','c','o','r','e',':'] s1 with
  | none => none
  | some s2 =>
    let s3 := s2.dropWhile isPySpace
    let D := s3.takeWhile isDigitCh
    let rest := s3.dropWhile isDigitCh
    if D.isEmpty then none
    else
      match rest with
      | '/' :: '1' :: '0' :: r => if r.all isPySpace then some (digitsVal D) else none
      | _ => none

/-- Leftmost search (`re.search`): the first position, scanning left to
right, at which the matcher succeeds, with the matched group.  Every
pattern above extends to the end of the string, so the match found here is
also the only one `re.sub` removes. -/
def reSearch (m : List Char → Option ℕ) : List Char → Option (ℕ × ℕ)
  | [] => (m []).map (fun n => (0, n))
  | c :: t =>
    match m (c :: t) with
    | some n => some (0, n)
    | none => (reSearch m t).map (fun p => (p.1 + 1, p.2))

/-- Embedding of `parse_confidence_from_response` (parsing.py lines
32-62) on character lists: try the four patterns in order; on a match,
the text before the match is stripped and the group clamped to `[1, 10]`;
otherwise the text is returned unchanged with no confidence. -/
def parseConfChars (cs : List Char) : List Char × Option ℕ :=
  if cs.isEmpty then (cs, none)
  else
    match reSearch p1MatchAt cs with
    | some (i, n) => (pyStrip (cs.take i), some (pyClamp n))
    | none =>
      match reSearch p2MatchAt cs with
      | some (i, n) => (pyStrip (cs.take i), some (pyClamp n))
      | none =>
        match reSearch p3MatchAt cs with
        | some (i, n) => (pyStrip (cs.take i), some (pyClamp n))
        | none =>
          match reSearch p4MatchAt cs with
          | some (i, n) => (pyStrip (cs.take i), some (pyClamp n))
          | none => (cs, none)

/-- Embedding of `parse_confidence_from_response` on `String`. -/
def parse_confidence_from_response (response_text : String) : String × Option ℕ :=
  let r := parseConfChars response_text.toList
  (String.mk r.1, r.2)

/-! ## `parsing.py` — Ranking extraction -/

/-- Marker `"FINAL RANKING:"`. -/
def finalMarker : List Char := ['F','I','N','A','L',' ','R','A','N','K','I','N','G',':']

/-- Index of the first occurrence of `needle` in `hay`, if any. -/
def findSub (needle : List Char) : List Char → Option ℕ
  | [] => if needle.isPrefixOf ([] : List Char) then some 0 else none
  | c :: t =>
    if needle.isPrefixOf (c :: t) then some 0 else (findSub needle t).map (· + 1)

/-- Substring containment, Python `needle in hay`. -/
def containsSub (needle hay : List Char) : Bool := (findSub needle hay).isSome

theorem findSub_marker_nil : findSub finalMarker [] = none := by decide

/-- Fuel-indexed worker for `split("FINAL RANKING:")`: each found
occurrence consumes at least the marker's length, so a fuel of the text
length always suffices (the fuel-0 branch is never reached from
`pySplitMarker`). -/
def pySplitMarkerGo : ℕ → List Char → List (List Char)
  | 0, cs => [cs]
  | fuel + 1, cs =>
    match findSub finalMarker cs with
    | none => [cs]
    | some i => cs.take i :: pySplitMarkerGo fuel (cs.drop (i + finalMarker.length))

/-- Python `text.split("FINAL RANKING:")`: pieces between consecutive
occurrences of the marker. -/
def pySplitMarker (cs : List Char) : List (List Char) :=
  pySplitMarkerGo cs.length cs

theorem findSub_le (needle cs : List Char) (i : ℕ)
    (h : findSub needle cs = some i) : i + needle.length ≤ cs.length := by
  induction cs generalizing i with
  | nil =>
    unfold findSub at h
    split at h
    · rename_i hpre
      have hle := (List.isPrefixOf_iff_prefix.mp hpre).length_le
      have hi : i = 0 := (Option.some.inj h).symm
      subst hi
      simpa using hle
    · exact Option.noConfusion h
  | cons c t ih =>
    unfold findSub at h
    split at h
    · rename_i hpre
      have hle := (List.isPrefixOf_iff_prefix.mp hpre).length_le
      have hi : i = 0 := (Option.some.inj h).symm
      subst hi
      simpa using hle
    · rcases hfs : findSub needle t with _ | j
      · rw [hfs] at h
        exact Option.noConfusion h
      · rw [hfs] at h
        have hji : j + 1 = i := Option.some.inj (by simpa using h)
        have := ih j hfs
        simp only [List.length_cons]
        omega

theorem pySplitMarkerGo_irrel (fuel : ℕ) :
    ∀ (fuel' : ℕ) (cs : List Char), cs.length ≤ fuel → cs.length ≤ fuel' →
      pySplitMarkerGo fuel cs = pySplitMarkerGo fuel' cs := by
  induction fuel with
  | zero =>
    intro fuel' cs h h'
    have hcs : cs = [] := List.length_eq_zero.mp (Nat.le_zero.mp h)
    subst hcs
    rcases fuel' with _ | f
    · rfl
    · show _ = match findSub finalMarker [] with
        | none => [([] : List Char)]
        | some i => List.take i [] ::
            pySplitMarkerGo f (List.drop (i + finalMarker.length) [])
      rw [findSub_marker_nil]
      rfl
  | succ f ih =>
    intro fuel' cs h h'
    rcases fuel' with _ | f'
    · have hcs : cs = [] := List.length_eq_zero.mp (Nat.le_zero.mp h')
      subst hcs
      show (match findSub finalMarker [] with
        | none => [([] : List Char)]
        | some i => List.take i [] ::
            pySplitMarkerGo f (List.drop (i + finalMarker.length) [])) = _
      rw [findSub_marker_nil]
      rfl
    · show (match findSub finalMarker cs with
        | none => [cs]
        | some i => cs.take i ::
            pySplitMarkerGo f (cs.drop (i + finalMarker.length))) =
        (match findSub finalMarker cs with
        | none => [cs]
        | some i => cs.take i ::
            pySplitMarkerGo f' (cs.drop (i + finalMarker.length)))
      rcases hfs : findSub finalMarker cs with _ | i
      · rfl
      · have hocc := findSub_le finalMarker cs i hfs
        have hmlen : 1 ≤ finalMarker.length := by decide
        have hdrop : (cs.drop (i + finalMarker.length)).length ≤ f := by
          rw [List.length_drop]
          omega
        have hdrop' : (cs.drop (i + finalMarker.length)).length ≤ f' := by
          rw [List.length_drop]
          omega
        dsimp only
        rw [ih f' _ hdrop hdrop']

theorem pySplitMarker_eq (cs : List Char) :
    pySplitMarker cs =
      match findSub finalMarker cs with
      | none => [cs]
      | some i => cs.take i :: pySplitMarker (cs.drop (i + finalMarker.length)) := by
  rcases hfs : findSub finalMarker cs with _ | i
  · rcases hcs : cs with _ | ⟨c, t⟩
    · rfl
    · show pySplitMarkerGo (c :: t).length (c :: t) = [c :: t]
      show (match findSub finalMarker (c :: t) with
        | none => [c :: t]
        | some i => List.take i (c :: t) ::
            pySplitMarkerGo t.length (List.drop (i + finalMarker.length) (c :: t))) =
        [c :: t]
      rw [hcs] at hfs
      rw [hfs]
  · have hne : cs ≠ [] := by
      intro he
      rw [he, findSub_marker_nil] at hfs
      exact Option.noConfusion hfs
    rcases hcs : cs with _ | ⟨c, t⟩
    · exact absurd hcs hne
    · subst hcs
      show (match findSub finalMarker (c :: t) with
        | none => [c :: t]
        | some i => List.take i (c :: t) ::
            pySplitMarkerGo t.length (List.drop (i + finalMarker.length) (c :: t))) = _
      rw [hfs]
      have hocc := findSub_le finalMarker (c :: t) i hfs
      have hmlen : 1 ≤ finalMarker.length := by decide
      have hlen : ((c :: t).drop (i + finalMarker.length)).length ≤ t.length := by
        rw [List.length_drop]
        simp only [List.length_cons]
        omega
      dsimp only
      rw [pySplitMarkerGo_irrel t.length _ _ hlen (le_refl _)]
      rfl

/-- Literal `"Response "`. -/
def respLit : List Char := ['R','e','s','p','o','n','s','e',' ']

/-- Matcher for `Response [A-Z]` at the current position: the matched
text and the remaining input. -/
def matchRespAt (cs : List Char) : Option (List Char × List Char) :=
  if respLit.isPrefixOf cs then
    match cs.drop 9 with
    | c :: rest => if 'A' ≤ c && c ≤ 'Z' then some (respLit ++ [c], rest) else none
    | [] => none
  else none

/-- Matcher for `\d+\.\s*Response [A-Z]` at the current position. -/
def matchNumberedAt (cs : List Char) : Option (List Char × List Char) :=
  let D := cs.takeWhile isDigitCh
  let r := cs.dropWhile isDigitCh
  if D.isEmpty then none
  else
    match r with
    | '.' :: r1 =>
      let W := r1.takeWhile isPySpace
      let r2 := r1.dropWhile isPySpace
      match matchRespAt r2 with
      | some (resp, rest) => some (D ++ '.' :: (W ++ resp), rest)
      | none => none
    | _ => none

theorem matchRespAt_consumes {cs x r : List Char}
    (h : matchRespAt cs = some (x, r)) : r.length < cs.length := by
  unfold matchRespAt at h
  split at h
  · rename_i hpre
    have hlen : 9 ≤ cs.length := by
      have := List.IsPrefix.length_le (List.isPrefixOf_iff_prefix.mp hpre)
      simpa [respLit] using this
    split at h
    · rename_i c rest heq
      split at h
      · have hxr := Option.some.inj h
        have hr : r = rest := (congrArg Prod.snd hxr).symm
        subst hr
        have hdl : (cs.drop 9).length = cs.length - 9 := List.length_drop 9 cs
        rw [heq] at hdl
        simp only [List.length_cons] at hdl
        omega
      · exact Option.noConfusion h
    · exact Option.noConfusion h
  · exact Option.noConfusion h

theorem matchNumberedAt_consumes {cs x r : List Char}
    (h : matchNumberedAt cs = some (x, r)) : r.length < cs.length := by
  simp only [matchNumberedAt] at h
  split at h
  · exact Option.noConfusion h
  · have hdw : (cs.dropWhile isDigitCh).length ≤ cs.length :=
      (List.dropWhile_sublist isDigitCh).length_le
    split at h
    · rename_i r1 heq
      rcases hm : matchRespAt (r1.dropWhile isPySpace) with _ | ⟨resp, rest⟩ <;>
        rw [hm] at h
      · exact Option.noConfusion h
      · have hc := matchRespAt_consumes hm
        have h1 : (r1.dropWhile isPySpace).length ≤ r1.length :=
          (List.dropWhile_sublist isPySpace).length_le
        have hxr := Option.some.inj h
        have hr : r = rest := (congrArg Prod.snd hxr).symm
        subst hr
        rw [heq] at hdw
        simp only [List.length_cons] at hdw
        omega
    · exact Option.noConfusion h

/-- Fuel-indexed worker for the `Response [A-Z]` scan: a successful match
consumes at least one character (`matchRespAt_consumes`) and a failure
advances by one, so a fuel of the input length always suffices. -/
def findAllRespGo : ℕ → List Char → List (List Char)
  | 0, _ => []
  | fuel + 1, cs =>
    match cs with
    | [] => []
    | c :: t =>
      match matchRespAt (c :: t) with
      | some (x, r) => x :: findAllRespGo fuel r
      | none => findAllRespGo fuel t

/-- Non-overlapping left-to-right scan, `re.findall(r"Response [A-Z]", ...)`. -/
def findAllResp (cs : List Char) : List (List Char) :=
  findAllRespGo cs.length cs

/-- Fuel-indexed worker for the `\d+\.\s*Response [A-Z]` scan; as with
`findAllRespGo`, a fuel of the input length always suffices
(`matchNumberedAt_consumes`). -/
def findAllNumberedGo : ℕ → List Char → List (List Char)
  | 0, _ => []
  | fuel + 1, cs =>
    match cs with
    | [] => []
    | c :: t =>
      match matchNumberedAt (c :: t) with
      | some (x, r) => x :: findAllNumberedGo fuel r
      | none => findAllNumberedGo fuel t

/-- Non-overlapping left-to-right scan,
`re.findall(r"\d+\.\s*Response [A-Z]", ...)`. -/
def findAllNumbered (cs : List Char) : List (List Char) :=
  findAllNumberedGo cs.length cs

/-- Leftmost `re.search(r"Response [A-Z]", m)` match. -/
def searchResp : List Char → Option (List Char)
  | [] => none
  | c :: t =>
    match matchRespAt (c :: t) with
    | some (x, _) => some x
    | none => searchResp t

/-- Group of the leftmost `Response [A-Z]` match.  (`group()` on a failed
search would raise; every numbered match contains a `Response <letter>`
occurrence, so the default is never taken on the call path below.) -/
def searchRespGroup (m : List Char) : List Char := (searchResp m).getD []

/-- Embedding of `parse_ranking_from_text` (parsing.py lines 16-29) on
character lists. -/
def parseRankingChars (ranking_text : List Char) : List (List Char) :=
  if containsSub finalMarker ranking_text then
    let parts := pySplitMarker ranking_text
    if 2 ≤ parts.length then
      let ranking_section := parts.getD 1 []
      let numbered_matches := findAllNumbered ranking_section
      if !numbered_matches.isEmpty then numbered_matches.map searchRespGroup
      else findAllResp ranking_section
    else findAllResp ranking_text
  else findAllResp ranking_text

/-- Embedding of `parse_ranking_from_text` on `String`. -/
def parse_ranking_from_text (ranking_text : String) : List String :=
  (parseRankingChars ranking_text.toList).map String.mk

/-! ## `orchestration.py` — Full council run -/

/-- Stage-3 synthesis result (`{"model": ..., "response": ...}`). -/
structure SynthResult where
  model : String
  response : String
deriving DecidableEq

/-- Feature-flags record placed in the metadata. -/
structure FeatureFlags where
  use_rubric : Bool
  debate_rounds : ℤ
  early_exit_used : Bool
  use_self_moa : Bool
  rotating_chairman : Bool
  meta_evaluate : Bool
  chairman_model : String
deriving DecidableEq

/-- Metadata dictionary returned by `run_full_council`: either the empty
dictionary `{}` of the total-failure short circuit, or the populated
record (with `debate_history` present only when truthy). -/
inductive Metadata where
  | empty : Metadata
  | full (label_to_model : PyDict String) (aggregate_rankings : List AggEntry)
      (consensus : ConsensusResult) (voting_method : String)
      (features : FeatureFlags) (stage1_consensus : Stage1Consensus)
      (debate_history : Option (List (List RankingRecord))) : Metadata
deriving DecidableEq

/-- External collaborators of `run_full_council`, abstracted over: awaited
model calls are pure oracles of their inputs. -/
structure CouncilEnv where
  stage1_self_moa : String → List Stage1Result
  stage1_collect : String → List Stage1Result
  stage2_debate : String → List Stage1Result → ℤ → Bool →
    List RankingRecord × PyDict String × List (List RankingRecord)
  stage2_plain : String → List Stage1Result → Bool →
    List RankingRecord × PyDict String
  stage3_synth : String → List Stage1Result → List RankingRecord → String →
    List AggEntry → SynthResult
  stage3_meta : String → List Stage1Result → List RankingRecord → SynthResult →
    SynthResult
  randPick : List Stage1Result → String

/-- Embedding of `run_full_council` (orchestration.py lines 19-129). -/
def run_full_council (env : CouncilEnv) (user_query : String)
    (voting_method : String := "borda") (use_rubric : Bool := false)
    (debate_rounds : ℤ := 1) (enable_early_exit : Bool := true)
    (use_self_moa : Bool := false) (rotating_chairman : Bool := false)
    (meta_evaluate : Bool := false) :
    Except String (List Stage1Result × List RankingRecord × SynthResult × Metadata) :=
  let stage1_results :=
    if use_self_moa then env.stage1_self_moa user_query
    else env.stage1_collect user_query
  if stage1_results.isEmpty then
    .ok ([], [],
      { model := "error"
        response := "All models failed to respond. Please try again." },
      Metadata.empty)
  else
    let stage1_consensus := check_stage1_consensus stage1_results
    let s2 : List RankingRecord × PyDict String × Option (List (List RankingRecord)) :=
      if 1 < debate_rounds then
        let t := env.stage2_debate user_query stage1_results debate_rounds use_rubric
        (t.1, t.2.1, some t.2.2)
      else
        let t := env.stage2_plain user_query stage1_results use_rubric
        (t.1, t.2, none)
    let stage2_results := s2.1
    let label_to_model := s2.2.1
    let debate_history := s2.2.2
    let aggregate_rankings :=
      calculate_aggregate_rankings stage2_results label_to_model
        (some stage1_results) voting_method
    let consensus := detect_consensus stage2_results label_to_model
    (if rotating_chairman && !aggregate_rankings.isEmpty then
        select_rotating_chairman stage1_results aggregate_rankings "top_ranked" env.randPick
      else Except.ok CHAIRMAN_MODEL).bind (fun chairman =>
      let early_exit_used := enable_early_exit && consensus.early_exit_eligible
      let synth :=
        env.stage3_synth user_query stage1_results stage2_results chairman
          aggregate_rankings
      let stage3_result :=
        if meta_evaluate then
          env.stage3_meta user_query stage1_results stage2_results synth
        else synth
      let metadata := Metadata.full label_to_model aggregate_rankings consensus
        voting_method
        { use_rubric := use_rubric
          debate_rounds := debate_rounds
          early_exit_used := early_exit_used
          use_self_moa := use_self_moa
          rotating_chairman := rotating_chairman
          meta_evaluate := meta_evaluate
          chairman_model := chairman }
        stage1_consensus
        (match debate_history with
         | some h => if h.isEmpty then none else some h
         | none => none)
      Except.ok (stage1_results, stage2_results, stage3_result, metadata))

/-! ## Dictionary lemmas -/

theorem dictGet?_set_self {β : Type} (d : PyDict β) (k : String) (v : β) :
    dictGet? (dictSet d k v) k = some v := by
  induction d with
  | nil => simp [dictSet, dictGet?]
  | cons p rest ih =>
    rcases p with ⟨k', v'⟩
    by_cases hk : k' == k
    · simp [dictSet, dictGet?, hk]
    · simp only [dictSet, hk, Bool.false_eq_true, if_false]
      simpa [dictGet?, hk] using ih

theorem dictGet?_set_ne {β : Type} (d : PyDict β) (k k' : String) (v : β)
    (h : k' ≠ k) : dictGet? (dictSet d k v) k' = dictGet? d k' := by
  induction d with
  | nil =>
    simp [dictSet, dictGet?, List.find?, beq_eq_false_iff_ne.mpr (Ne.symm h)]
  | cons p rest ih =>
    rcases p with ⟨k₀, v₀⟩
    by_cases hk : k₀ == k
    · have he := beq_iff_eq.mp hk
      subst he
      have hne : (k₀ == k') = false := beq_eq_false_iff_ne.mpr (Ne.symm h)
      simp [dictSet, dictGet?, List.find?, hne]
    · simp only [dictSet, hk, Bool.false_eq_true, if_false]
      by_cases hk2 : k₀ == k'
      · simp [dictGet?, List.find?, hk2]
      · have hl : dictGet? ((k₀, v₀) :: dictSet rest k v) k' =
            dictGet? (dictSet rest k v) k' := by
          simp [dictGet?, List.find?, hk2]
        have hr : dictGet? ((k₀, v₀) :: rest) k' = dictGet? rest k' := by
          simp [dictGet?, List.find?, hk2]
        rw [hl, hr]
        exact ih

theorem dictGetD_set_self {β : Type} (d : PyDict β) (k : String) (v z : β) :
    dictGetD (dictSet d k v) k z = v := by
  simp [dictGetD, dictGet?_set_self]

theorem dictGetD_set_ne {β : Type} (d : PyDict β) (k k' : String) (v z : β)
    (h : k' ≠ k) : dictGetD (dictSet d k v) k' z = dictGetD d k' z := by
  simp [dictGetD, dictGet?_set_ne _ _ _ _ h]

theorem dictSumValues_inc {β : Type} [AddCommMonoid β] (d : PyDict β)
    (k : String) (x : β) :
    dictSumValues (dictSet d k (dictGetD d k 0 + x)) = dictSumValues d + x := by
  induction d with
  | nil => simp [dictSet, dictSumValues, dictGetD, dictGet?]
  | cons p rest ih =>
    rcases p with ⟨k', v'⟩
    by_cases hk : k' == k
    · have hgd : dictGetD ((k', v') :: rest) k 0 = v' := by
        simp [dictGetD, dictGet?, List.find?, hk]
      rw [hgd]
      simp only [dictSet, hk, if_true, dictSumValues, List.map_cons, List.sum_cons]
      abel
    · have hgd : dictGetD ((k', v') :: rest) k 0 = dictGetD rest k 0 := by
        simp [dictGetD, dictGet?, List.find?, hk]
      rw [hgd]
      simp only [dictSet, hk, Bool.false_eq_true, if_false, dictSumValues, List.map_cons,
        List.sum_cons]
      have ih' : (List.map Prod.snd (dictSet rest k (dictGetD rest k 0 + x))).sum =
          (List.map Prod.snd rest).sum + x := ih
      rw [ih']
      abel

theorem mem_dictKeys_set {β : Type} (d : PyDict β) (k k' : String) (v : β) :
    k' ∈ dictKeys (dictSet d k v) ↔ k' ∈ dictKeys d ∨ k' = k := by
  induction d with
  | nil => simp [dictSet, dictKeys]
  | cons p rest ih =>
    rcases p with ⟨k₀, v₀⟩
    by_cases hk : k₀ == k
    · have hek := beq_iff_eq.mp hk
      subst hek
      simp [dictSet, dictKeys]
      tauto
    · simp only [dictSet, hk, Bool.false_eq_true, if_false, dictKeys, List.map_cons,
        List.mem_cons]
      rw [show (dictSet rest k v).map Prod.fst = dictKeys (dictSet rest k v) from rfl]
      rw [ih]
      tauto

theorem dictKeys_nodup_set {β : Type} (d : PyDict β) (k : String) (v : β)
    (h : (dictKeys d).Nodup) : (dictKeys (dictSet d k v)).Nodup := by
  induction d with
  | nil => simp [dictSet, dictKeys]
  | cons p rest ih =>
    rcases p with ⟨k₀, v₀⟩
    simp only [dictKeys, List.map_cons, List.nodup_cons] at h
    by_cases hk : k₀ == k
    · have hek := beq_iff_eq.mp hk
      subst hek
      simp only [dictSet, beq_self_eq_true, if_true, dictKeys, List.map_cons,
        List.nodup_cons]
      exact h
    · simp only [dictSet, hk, Bool.false_eq_true, if_false, dictKeys, List.map_cons,
        List.nodup_cons]
      refine ⟨?_, ih h.2⟩
      intro hmem
      rw [show (dictSet rest k v).map Prod.fst = dictKeys (dictSet rest k v) from rfl,
        mem_dictKeys_set] at hmem
      rcases hmem with hmem | hmem
      · exact h.1 hmem
      · exact (by simpa [hmem] using hk : ¬True) trivial

theorem dictGet?_eq_some_of_mem_nodup {β : Type} {d : PyDict β} {k : String}
    {v : β} (hnd : (dictKeys d).Nodup) (hmem : (k, v) ∈ d) :
    dictGet? d k = some v := by
  induction d with
  | nil => simp at hmem
  | cons p rest ih =>
    rcases p with ⟨k₀, v₀⟩
    simp only [dictKeys, List.map_cons, List.nodup_cons] at hnd
    rcases List.mem_cons.mp hmem with he | hm
    · have hk1 : k = k₀ := congrArg Prod.fst he
      have hv1 : v = v₀ := congrArg Prod.snd he
      subst hk1
      subst hv1
      simp [dictGet?]
    · have hne : k₀ ≠ k := by
        intro he
        subst he
        exact hnd.1 (List.mem_map_of_mem Prod.fst hm)
      have : dictGet? rest k = some v := ih hnd.2 hm
      simpa [dictGet?, List.find?, show (k₀ == k) = false from beq_eq_false_iff_ne.mpr hne]
        using this

theorem mem_of_dictGet?_eq_some {β : Type} {d : PyDict β} {k : String} {v : β}
    (h : dictGet? d k = some v) : (k, v) ∈ d := by
  induction d with
  | nil => simp [dictGet?] at h
  | cons p rest ih =>
    rcases p with ⟨k₀, v₀⟩
    by_cases hk : k₀ == k
    · have he := beq_iff_eq.mp hk
      subst he
      simp [dictGet?] at h
      simp [h]
    · simp only [dictGet?, List.find?, hk] at h
      exact List.mem_cons_of_mem _ (ih h)

theorem dictGet?_isSome_iff_mem_keys {β : Type} (d : PyDict β) (k : String) :
    (dictGet? d k).isSome ↔ k ∈ dictKeys d := by
  induction d with
  | nil => simp [dictGet?, dictKeys]
  | cons p rest ih =>
    rcases p with ⟨k₀, v₀⟩
    by_cases hk : k₀ == k
    · simp [dictGet?, dictKeys, hk, beq_iff_eq.mp hk]
    · simp only [dictGet?, List.find?, hk, dictKeys, List.map_cons, List.mem_cons]
      rw [show ((rest.find? fun p => p.1 == k).map (·.2)) = dictGet? rest k from rfl]
      rw [ih]
      constructor
      · exact Or.inr
      · rintro (he | hm)
        · exact absurd (by simp [he] : (k₀ == k) = true) (by simp [hk])
        · exact hm

/-! ## Claim C7 — dispatcher fallbacks -/

/-- C7: `calculate_aggregate_rankings` never fails on a configuration
problem: any method name other than `"borda"`, `"mrr"` and
`"confidence_weighted"` yields exactly the simple average-rank result,
and `"confidence_weighted"` without Stage-1 results yields exactly the
Borda result.  (The embedding is a total function, so no exception is
possible by construction.) -/
theorem aggregate_rankings_config_fallback
    (stage2_results : List RankingRecord) (label_to_model : PyDict String)
    (stage1_results : Option (List Stage1Result)) (method : String)
    (h : method ∉ (["borda", "mrr", "confidence_weighted"] : List String)) :
    calculate_aggregate_rankings stage2_results label_to_model stage1_results method =
      calculate_simple_average stage2_results label_to_model ∧
    calculate_aggregate_rankings stage2_results label_to_model none
        "confidence_weighted" =
      calculate_borda_count stage2_results label_to_model none := by
  constructor
  · simp only [List.mem_cons, List.mem_singleton, not_or] at h
    obtain ⟨h1, h2, h3⟩ := h
    unfold calculate_aggregate_rankings
    rw [if_neg (by simpa using h1), if_neg (by simpa using h2),
      if_neg (by simpa using h3)]
  · rfl

/-- Witness for C7 at the unknown method name `"bogus"`. -/
theorem aggregate_rankings_config_fallback_witness :
    calculate_aggregate_rankings [] [] none "bogus" =
      calculate_simple_average [] [] :=
  (aggregate_rankings_config_fallback [] [] none "bogus" (by decide)).1

/-! ## Claim C3 — total Stage-1 failure short circuit -/

/-- C3: when Stage 1 produces no successful responses, `run_full_council`
returns exactly `([], [], {model: "error", response: "All models failed
to respond. Please try again."}, {})` without failing, for every choice of
the Stage-2/Stage-3 collaborators — so Stage 2 and Stage 3 are never
invoked — and the error response text begins with `"All models failed"`. -/
theorem run_full_council_total_failure (env : CouncilEnv) (user_query : String)
    (voting_method : String) (use_rubric : Bool) (debate_rounds : ℤ)
    (enable_early_exit : Bool) (use_self_moa : Bool) (rotating_chairman : Bool)
    (meta_evaluate : Bool)
    (h : (if use_self_moa then env.stage1_self_moa user_query
          else env.stage1_collect user_query) = []) :
    run_full_council env user_query voting_method use_rubric debate_rounds
        enable_early_exit use_self_moa rotating_chairman meta_evaluate =
      Except.ok ([], [],
        { model := "error"
          response := "All models failed to respond. Please try again." },
        Metadata.empty) ∧
    "All models failed".toList.isPrefixOf
      "All models failed to respond. Please try again.".toList = true := by
  refine ⟨?_, by decide⟩
  unfold run_full_council
  rw [h]
  rfl

/-- Council environment whose Stage-1 collection yields no responses but
whose Stage-2/Stage-3 oracles are non-trivial (used to witness that the
short circuit ignores them). -/
def allFailedEnv : CouncilEnv :=
  ⟨fun _ => [], fun _ => [],
   fun _ _ _ _ => ([⟨some "x", none, ["Response A"], []⟩], [("Response A", "mA")], []),
   fun _ _ _ => ([⟨some "x", none, ["Response A"], []⟩], [("Response A", "mA")]),
   fun _ _ _ _ _ => ⟨"chair", "synth"⟩, fun _ _ _ s => s, fun _ => "r"⟩

/-- Witness for C3: a council whose Stage-1 collection returns no
responses (and whose Stage-2/Stage-3 oracles are manifestly never used,
as the result does not depend on them). -/
theorem run_full_council_total_failure_witness :
    run_full_council allFailedEnv "What is 2+2?" "borda" false 1 true false false
        false =
      Except.ok ([], [],
        { model := "error"
          response := "All models failed to respond. Please try again." },
        Metadata.empty) :=
  (run_full_council_total_failure allFailedEnv "What is 2+2?" "borda" false 1 true
    false false false rfl).1


/-! ## Claim C2 — Borda points of one complete ranking -/

/-- Points awarded by one ranking-record walk: `numCandidates - position`
for every label found in the map, 0 otherwise. -/
def bordaAward (numCandidates : ℤ) (labelToModel : PyDict String)
    (p : ℕ × String) : ℤ :=
  match dictGet? labelToModel p.2 with
  | some _ => numCandidates - p.1
  | none => 0

theorem bordaRecordStep_sum (numCandidates : ℤ) (labelToModel : PyDict String)
    (pairs : List (ℕ × String)) (acc : PyDict ℤ × PyDict ℕ) :
    dictSumValues (bordaRecordStep numCandidates labelToModel acc pairs).1 =
      dictSumValues acc.1 +
        (pairs.map (bordaAward numCandidates labelToModel)).sum := by
  induction pairs generalizing acc with
  | nil => simp [bordaRecordStep]
  | cons p rest ih =>
    rcases p with ⟨i, l⟩
    rcases hg : dictGet? labelToModel l with _ | m
    · simp only [bordaRecordStep, hg]
      rw [ih]
      simp [bordaAward, hg]
    · simp only [bordaRecordStep, hg]
      rw [ih]
      simp only [dictSumValues_inc, bordaAward, List.map_cons, List.sum_cons, hg]
      ring

theorem bordaTally_sum (numCandidates : ℤ) (labelToModel : PyDict String)
    (rs : List RankingRecord) (acc : PyDict ℤ × PyDict ℕ) :
    dictSumValues (bordaTally numCandidates labelToModel acc rs).1 =
      dictSumValues acc.1 +
        (rs.map (fun r =>
          (r.parsed_ranking.enum.map
            (bordaAward numCandidates labelToModel)).sum)).sum := by
  induction rs generalizing acc with
  | nil => simp [bordaTally]
  | cons r rest ih =>
    simp only [bordaTally]
    rw [ih, bordaRecordStep_sum]
    simp only [List.map_cons, List.sum_cons]
    ring

theorem sum_range_sub_mul_two (n : ℕ) (c : ℤ) :
    (((List.range n).map (fun (i : ℕ) => c - (i : ℤ))).sum) * 2 =
      n * (2 * c - n + 1) := by
  induction n with
  | zero => simp
  | succ m ih =>
    rw [List.range_succ]
    simp only [List.map_append, List.sum_append, List.map_cons, List.map_nil,
      List.sum_cons, List.sum_nil]
    push_cast
    push_cast at ih
    linear_combination ih

theorem pyInsertDesc_perm {α κ : Type} [LinearOrder κ] (key : α → κ) (e : α)
    (l : List α) : (pyInsertDesc key e l).Perm (e :: l) := by
  induction l with
  | nil => exact List.Perm.refl _
  | cons x xs ih =>
    rw [pyInsertDesc]
    split
    · exact (List.Perm.cons x ih).trans (List.Perm.swap e x xs)
    · exact List.Perm.refl _

theorem pySortDesc_perm {α κ : Type} [LinearOrder κ] (key : α → κ)
    (l : List α) : (pySortDesc key l).Perm l := by
  induction l with
  | nil => exact List.Perm.refl _
  | cons x xs ih =>
    rw [pySortDesc]
    exact (pyInsertDesc_perm key x (pySortDesc key xs)).trans (ih.cons x)

theorem pyInsertAsc_perm {α κ : Type} [LinearOrder κ] (key : α → κ) (e : α)
    (l : List α) : (pyInsertAsc key e l).Perm (e :: l) := by
  induction l with
  | nil => exact List.Perm.refl _
  | cons x xs ih =>
    rw [pyInsertAsc]
    split
    · exact (List.Perm.cons x ih).trans (List.Perm.swap e x xs)
    · exact List.Perm.refl _

theorem pySortAsc_perm {α κ : Type} [LinearOrder κ] (key : α → κ)
    (l : List α) : (pySortAsc key l).Perm l := by
  induction l with
  | nil => exact List.Perm.refl _
  | cons x xs ih =>
    rw [pySortAsc]
    exact (pyInsertAsc_perm key x (pySortAsc key xs)).trans (ih.cons x)

theorem borda_filterMap_score (s2 : List RankingRecord) (ltm : PyDict String)
    (s1 : Option (List Stage1Result)) :
    ((calculate_borda_count s2 ltm s1).filterMap (fun e => e.borda_score)).sum =
      dictSumValues (bordaTally (ltm.length : ℤ) ltm ([], []) s2).1 := by
  have h0 : calculate_borda_count s2 ltm s1 =
      pySortDesc (fun e => ((e.borda_score.getD 0 : ℤ) : ℚ))
        (bordaAggregate s2 ltm) := rfl
  rw [h0,
    ((pySortDesc_perm (fun e => ((e.borda_score.getD 0 : ℤ) : ℚ))
      (bordaAggregate s2 ltm)).filterMap (fun e => e.borda_score)).sum_eq]
  have h1 : bordaAggregate s2 ltm =
      (bordaTally (ltm.length : ℤ) ltm ([], []) s2).1.map
        (bordaEntry (ltm.length : ℤ) ((ltm.length : ℤ) * s2.length)
          (bordaTally (ltm.length : ℤ) ltm ([], []) s2).2) := rfl
  rw [h1, List.filterMap_map]
  rw [show (fun e => AggEntry.borda_score e) ∘
      (bordaEntry (ltm.length : ℤ) ((ltm.length : ℤ) * s2.length)
        (bordaTally (ltm.length : ℤ) ltm ([], []) s2).2) =
      some ∘ Prod.snd from funext fun p => rfl]
  rw [List.filterMap_eq_map]
  rfl

/-- C2: for a ranking record whose parsed ranking is a permutation of all
`N` labels of the label-to-model map (`N = |LabelMap|`, distinct labels),
the Borda points awarded by `calculate_borda_count` for that single
record, summed over all models of its output, equal `N(N+1)/2`
(0-indexed position `p` contributes `N - p`). -/
theorem borda_complete_ranking_sum (label_to_model : PyDict String)
    (r : RankingRecord)
    (hnd : (dictKeys label_to_model).Nodup)
    (hperm : r.parsed_ranking.Perm (dictKeys label_to_model)) :
    ((calculate_borda_count [r] label_to_model none).filterMap
        (fun e => e.borda_score)).sum =
      (label_to_model.length : ℤ) * ((label_to_model.length : ℤ) + 1) / 2 := by
  rw [borda_filterMap_score, bordaTally_sum]
  have hz : dictSumValues (([], []) : PyDict ℤ × PyDict ℕ).1 = 0 := rfl
  rw [hz]
  simp only [List.map_cons, List.map_nil, List.sum_cons, List.sum_nil, add_zero,
    zero_add]
  have hmapped : ∀ p ∈ r.parsed_ranking.enum,
      bordaAward (label_to_model.length : ℤ) label_to_model p =
        (label_to_model.length : ℤ) - p.1 := by
    intro p hp
    have hl : p.2 ∈ r.parsed_ranking := by
      have := List.mem_map_of_mem Prod.snd hp
      rwa [List.enum_map_snd] at this
    have hk : p.2 ∈ dictKeys label_to_model := hperm.mem_iff.mp hl
    have hs : (dictGet? label_to_model p.2).isSome :=
      (dictGet?_isSome_iff_mem_keys label_to_model p.2).mpr hk
    rcases ho : dictGet? label_to_model p.2 with _ | m
    · rw [ho] at hs
      simp at hs
    · simp [bordaAward, ho]
  rw [List.map_congr_left hmapped]
  have h2 : r.parsed_ranking.enum.map (fun p => (label_to_model.length : ℤ) - p.1) =
      List.map (fun (i : ℕ) => (label_to_model.length : ℤ) - (i : ℤ))
        (r.parsed_ranking.enum.map Prod.fst) := by
    rw [List.map_map]
    rfl
  rw [h2, List.enum_map_fst]
  have hN : r.parsed_ranking.length = label_to_model.length := by
    have := hperm.length_eq
    simpa [dictKeys] using this
  rw [hN]
  have hg := sum_range_sub_mul_two label_to_model.length (label_to_model.length : ℤ)
  have hg2 : (List.map (fun (i : ℕ) => (label_to_model.length : ℤ) - (i : ℤ))
        (List.range label_to_model.length)).sum * 2 =
      (label_to_model.length : ℤ) * ((label_to_model.length : ℤ) + 1) := by
    linear_combination hg
  set S := (List.map (fun (i : ℕ) => (label_to_model.length : ℤ) - (i : ℤ))
    (List.range label_to_model.length)).sum with hS
  set M := (label_to_model.length : ℤ) * ((label_to_model.length : ℤ) + 1) with hM
  omega

/-- Witness for C2: the complete ranking `[B, A]` over a two-label map
awards `2 + 1 = 3 = 2·3/2` points. -/
theorem borda_complete_ranking_sum_witness :
    ((calculate_borda_count [⟨none, none, ["Response B", "Response A"], []⟩]
        [("Response A", "mA"), ("Response B", "mB")] none).filterMap
      (fun e => e.borda_score)).sum = 3 :=
  borda_complete_ranking_sum [("Response A", "mA"), ("Response B", "mB")]
    ⟨none, none, ["Response B", "Response A"], []⟩ (by decide) (by decide)

/-! ## Claim C10 — output models come from the label map -/

/-- Occurrences, across all parsed rankings, of labels that the map sends
to `m`: the number of times model `m` is credited by any voting walk. -/
def modelCreditCount (labelToModel : PyDict String) (m : String)
    (rs : List RankingRecord) : ℕ :=
  (rs.map (fun r =>
    r.parsed_ranking.countP (fun l => dictGet? labelToModel l == some m))).sum

theorem countP_enum_snd {α : Type} (l : List α) (q : α → Bool) :
    l.enum.countP (fun p => q p.2) = l.countP q := by
  have h := List.countP_map q Prod.snd l.enum
  rw [List.enum_map_snd] at h
  exact h.symm

theorem mem_pySortDescBy {key : AggEntry → ℚ} {l : List AggEntry} {e : AggEntry} :
    e ∈ pySortDescBy key l ↔ e ∈ l :=
  (pySortDesc_perm key l).mem_iff

theorem mem_pySortAscBy {key : AggEntry → ℚ} {l : List AggEntry} {e : AggEntry} :
    e ∈ pySortAscBy key l ↔ e ∈ l :=
  (pySortAsc_perm key l).mem_iff

theorem snd_mem_dictValues_of_dictGet? {β : Type} {d : PyDict β} {k : String}
    {v : β} (h : dictGet? d k = some v) : v ∈ dictValues d :=
  List.mem_map_of_mem Prod.snd (mem_of_dictGet?_eq_some h)

theorem bordaRecordStep_keys (numCandidates : ℤ) (labelToModel : PyDict String)
    (pairs : List (ℕ × String)) (acc : PyDict ℤ × PyDict ℕ) (k : String)
    (h : k ∈ dictKeys (bordaRecordStep numCandidates labelToModel acc pairs).1) :
    k ∈ dictKeys acc.1 ∨ k ∈ dictValues labelToModel := by
  induction pairs generalizing acc with
  | nil => exact Or.inl (by simpa [bordaRecordStep] using h)
  | cons p rest ih =>
    rcases p with ⟨i, l⟩
    rcases hg : dictGet? labelToModel l with _ | m
    · rw [bordaRecordStep, hg] at h
      exact ih _ h
    · rw [bordaRecordStep, hg] at h
      rcases ih _ h with hin | him
      · rcases (mem_dictKeys_set _ _ _ _).mp hin with hin2 | he
        · exact Or.inl hin2
        · exact Or.inr (he ▸ snd_mem_dictValues_of_dictGet? hg)
      · exact Or.inr him

theorem bordaTally_keys (numCandidates : ℤ) (labelToModel : PyDict String)
    (rs : List RankingRecord) (acc : PyDict ℤ × PyDict ℕ) (k : String)
    (h : k ∈ dictKeys (bordaTally numCandidates labelToModel acc rs).1) :
    k ∈ dictKeys acc.1 ∨ k ∈ dictValues labelToModel := by
  induction rs generalizing acc with
  | nil => exact Or.inl (by simpa [bordaTally] using h)
  | cons r rest ih =>
    rw [bordaTally] at h
    rcases ih _ h with hin | him
    · exact bordaRecordStep_keys _ _ _ _ _ hin
    · exact Or.inr him

theorem bordaRecordStep_votes (numCandidates : ℤ) (labelToModel : PyDict String)
    (pairs : List (ℕ × String)) (acc : PyDict ℤ × PyDict ℕ) (m : String) :
    dictGetD (bordaRecordStep numCandidates labelToModel acc pairs).2 m 0 =
      dictGetD acc.2 m 0 +
        pairs.countP (fun p => dictGet? labelToModel p.2 == some m) := by
  induction pairs generalizing acc with
  | nil => simp [bordaRecordStep]
  | cons p rest ih =>
    rcases p with ⟨i, l⟩
    rcases hg : dictGet? labelToModel l with _ | mm
    · rw [bordaRecordStep, hg, ih,
        List.countP_cons_of_neg _ _ (by simp [hg])]
    · rw [bordaRecordStep, hg, ih]
      by_cases hm : mm = m
      · subst hm
        rw [dictGetD_set_self, List.countP_cons_of_pos _ _ (by simp [hg])]
        omega
      · rw [dictGetD_set_ne _ _ _ _ _ (Ne.symm hm),
          List.countP_cons_of_neg _ _ (by simp [hg, hm])]

theorem bordaTally_votes (numCandidates : ℤ) (labelToModel : PyDict String)
    (rs : List RankingRecord) (acc : PyDict ℤ × PyDict ℕ) (m : String) :
    dictGetD (bordaTally numCandidates labelToModel acc rs).2 m 0 =
      dictGetD acc.2 m 0 + modelCreditCount labelToModel m rs := by
  induction rs generalizing acc with
  | nil => simp [bordaTally, modelCreditCount]
  | cons r rest ih =>
    rw [bordaTally, ih, bordaRecordStep_votes,
      countP_enum_snd r.parsed_ranking
        (fun l => dictGet? labelToModel l == some m)]
    simp only [modelCreditCount, List.map_cons, List.sum_cons]
    omega

theorem mrrRecordStep_keys (labelToModel : PyDict String)
    (pairs : List (ℕ × String)) (acc : PyDict ℚ × PyDict ℕ) (k : String)
    (h : k ∈ dictKeys (mrrRecordStep labelToModel acc pairs).1) :
    k ∈ dictKeys acc.1 ∨ k ∈ dictValues labelToModel := by
  induction pairs generalizing acc with
  | nil => exact Or.inl (by simpa [mrrRecordStep] using h)
  | cons p rest ih =>
    rcases p with ⟨i, l⟩
    rcases hg : dictGet? labelToModel l with _ | m
    · rw [mrrRecordStep, hg] at h
      exact ih _ h
    · rw [mrrRecordStep, hg] at h
      rcases ih _ h with hin | him
      · rcases (mem_dictKeys_set _ _ _ _).mp hin with hin2 | he
        · exact Or.inl hin2
        · exact Or.inr (he ▸ snd_mem_dictValues_of_dictGet? hg)
      · exact Or.inr him

theorem mrrTally_keys (labelToModel : PyDict String)
    (rs : List RankingRecord) (acc : PyDict ℚ × PyDict ℕ) (k : String)
    (h : k ∈ dictKeys (mrrTally labelToModel acc rs).1) :
    k ∈ dictKeys acc.1 ∨ k ∈ dictValues labelToModel := by
  induction rs generalizing acc with
  | nil => exact Or.inl (by simpa [mrrTally] using h)
  | cons r rest ih =>
    rw [mrrTally] at h
    rcases ih _ h with hin | him
    · exact mrrRecordStep_keys _ _ _ _ hin
    · exact Or.inr him

theorem mrrRecordStep_votes (labelToModel : PyDict String)
    (pairs : List (ℕ × String)) (acc : PyDict ℚ × PyDict ℕ) (m : String) :
    dictGetD (mrrRecordStep labelToModel acc pairs).2 m 0 =
      dictGetD acc.2 m 0 +
        pairs.countP (fun p => dictGet? labelToModel p.2 == some m) := by
  induction pairs generalizing acc with
  | nil => simp [mrrRecordStep]
  | cons p rest ih =>
    rcases p with ⟨i, l⟩
    rcases hg : dictGet? labelToModel l with _ | mm
    · rw [mrrRecordStep, hg, ih,
        List.countP_cons_of_neg _ _ (by simp [hg])]
    · rw [mrrRecordStep, hg, ih]
      by_cases hm : mm = m
      · subst hm
        rw [dictGetD_set_self, List.countP_cons_of_pos _ _ (by simp [hg])]
        omega
      · rw [dictGetD_set_ne _ _ _ _ _ (Ne.symm hm),
          List.countP_cons_of_neg _ _ (by simp [hg, hm])]

theorem mrrTally_votes (labelToModel : PyDict String)
    (rs : List RankingRecord) (acc : PyDict ℚ × PyDict ℕ) (m : String) :
    dictGetD (mrrTally labelToModel acc rs).2 m 0 =
      dictGetD acc.2 m 0 + modelCreditCount labelToModel m rs := by
  induction rs generalizing acc with
  | nil => simp [mrrTally, modelCreditCount]
  | cons r rest ih =>
    rw [mrrTally, ih, mrrRecordStep_votes,
      countP_enum_snd r.parsed_ranking
        (fun l => dictGet? labelToModel l == some m)]
    simp only [modelCreditCount, List.map_cons, List.sum_cons]
    omega

theorem cwRecordStep_keys (numCandidates : ℤ) (labelToModel : PyDict String)
    (weight : ℚ) (pairs : List (ℕ × String))
    (acc : PyDict ℚ × PyDict ℚ × PyDict ℕ) (k : String)
    (h : k ∈ dictKeys (cwRecordStep numCandidates labelToModel weight acc pairs).1) :
    k ∈ dictKeys acc.1 ∨ k ∈ dictValues labelToModel := by
  induction pairs generalizing acc with
  | nil => exact Or.inl (by simpa [cwRecordStep] using h)
  | cons p rest ih =>
    rcases p with ⟨i, l⟩
    rcases hg : dictGet? labelToModel l with _ | m
    · rw [cwRecordStep, hg] at h
      exact ih _ h
    · rw [cwRecordStep, hg] at h
      rcases ih _ h with hin | him
      · rcases (mem_dictKeys_set _ _ _ _).mp hin with hin2 | he
        · exact Or.inl hin2
        · exact Or.inr (he ▸ snd_mem_dictValues_of_dictGet? hg)
      · exact Or.inr him

theorem cwTally_keys (numCandidates : ℤ) (labelToModel : PyDict String)
    (confidenceMap : PyDict ℚ) (rs : List RankingRecord)
    (acc : PyDict ℚ × PyDict ℚ × PyDict ℕ) (k : String)
    (h : k ∈ dictKeys (cwTally numCandidates labelToModel confidenceMap acc rs).1) :
    k ∈ dictKeys acc.1 ∨ k ∈ dictValues labelToModel := by
  induction rs generalizing acc with
  | nil => exact Or.inl (by simpa [cwTally] using h)
  | cons r rest ih =>
    rw [cwTally] at h
    rcases ih _ h with hin | him
    · exact cwRecordStep_keys _ _ _ _ _ _ hin
    · exact Or.inr him

theorem cwRecordStep_votes (numCandidates : ℤ) (labelToModel : PyDict String)
    (weight : ℚ) (pairs : List (ℕ × String))
    (acc : PyDict ℚ × PyDict ℚ × PyDict ℕ) (m : String) :
    dictGetD (cwRecordStep numCandidates labelToModel weight acc pairs).2.2 m 0 =
      dictGetD acc.2.2 m 0 +
        pairs.countP (fun p => dictGet? labelToModel p.2 == some m) := by
  induction pairs generalizing acc with
  | nil => simp [cwRecordStep]
  | cons p rest ih =>
    rcases p with ⟨i, l⟩
    rcases hg : dictGet? labelToModel l with _ | mm
    · rw [cwRecordStep, hg, ih,
        List.countP_cons_of_neg _ _ (by simp [hg])]
    · rw [cwRecordStep, hg, ih]
      by_cases hm : mm = m
      · subst hm
        rw [dictGetD_set_self, List.countP_cons_of_pos _ _ (by simp [hg])]
        omega
      · rw [dictGetD_set_ne _ _ _ _ _ (Ne.symm hm),
          List.countP_cons_of_neg _ _ (by simp [hg, hm])]

theorem cwTally_votes (numCandidates : ℤ) (labelToModel : PyDict String)
    (confidenceMap : PyDict ℚ) (rs : List RankingRecord)
    (acc : PyDict ℚ × PyDict ℚ × PyDict ℕ) (m : String) :
    dictGetD (cwTally numCandidates labelToModel confidenceMap acc rs).2.2 m 0 =
      dictGetD acc.2.2 m 0 + modelCreditCount labelToModel m rs := by
  induction rs generalizing acc with
  | nil => simp [cwTally, modelCreditCount]
  | cons r rest ih =>
    rw [cwTally, ih, cwRecordStep_votes,
      countP_enum_snd r.parsed_ranking
        (fun l => dictGet? labelToModel l == some m)]
    simp only [modelCreditCount, List.map_cons, List.sum_cons]
    omega

theorem simpleRecordStep_keys (labelToModel : PyDict String)
    (pairs : List (ℕ × String)) (acc : PyDict (List ℕ)) (k : String)
    (h : k ∈ dictKeys (simpleRecordStep labelToModel acc pairs)) :
    k ∈ dictKeys acc ∨ k ∈ dictValues labelToModel := by
  induction pairs generalizing acc with
  | nil => exact Or.inl (by simpa [simpleRecordStep] using h)
  | cons p rest ih =>
    rcases p with ⟨i, l⟩
    rcases hg : dictGet? labelToModel l with _ | m
    · rw [simpleRecordStep, hg] at h
      exact ih _ h
    · rw [simpleRecordStep, hg] at h
      rcases ih _ h with hin | him
      · rcases (mem_dictKeys_set _ _ _ _).mp hin with hin2 | he
        · exact Or.inl hin2
        · exact Or.inr (he ▸ snd_mem_dictValues_of_dictGet? hg)
      · exact Or.inr him

theorem simpleTally_keys (labelToModel : PyDict String)
    (rs : List RankingRecord) (acc : PyDict (List ℕ)) (k : String)
    (h : k ∈ dictKeys (simpleTally labelToModel acc rs)) :
    k ∈ dictKeys acc ∨ k ∈ dictValues labelToModel := by
  induction rs generalizing acc with
  | nil => exact Or.inl (by simpa [simpleTally] using h)
  | cons r rest ih =>
    rw [simpleTally] at h
    rcases ih _ h with hin | him
    · exact simpleRecordStep_keys _ _ _ _ hin
    · exact Or.inr him

theorem simpleRecordStep_len (labelToModel : PyDict String)
    (pairs : List (ℕ × String)) (acc : PyDict (List ℕ)) (m : String) :
    (dictGetD (simpleRecordStep labelToModel acc pairs) m []).length =
      (dictGetD acc m []).length +
        pairs.countP (fun p => dictGet? labelToModel p.2 == some m) := by
  induction pairs generalizing acc with
  | nil => simp [simpleRecordStep]
  | cons p rest ih =>
    rcases p with ⟨i, l⟩
    rcases hg : dictGet? labelToModel l with _ | mm
    · rw [simpleRecordStep, hg, ih,
        List.countP_cons_of_neg _ _ (by simp [hg])]
    · rw [simpleRecordStep, hg, ih]
      by_cases hm : mm = m
      · subst hm
        rw [dictGetD_set_self, List.countP_cons_of_pos _ _ (by simp [hg])]
        simp only [List.length_append, List.length_cons, List.length_nil]
        omega
      · rw [dictGetD_set_ne _ _ _ _ _ (Ne.symm hm),
          List.countP_cons_of_neg _ _ (by simp [hg, hm])]

theorem simpleTally_len (labelToModel : PyDict String)
    (rs : List RankingRecord) (acc : PyDict (List ℕ)) (m : String) :
    (dictGetD (simpleTally labelToModel acc rs) m []).length =
      (dictGetD acc m []).length + modelCreditCount labelToModel m rs := by
  induction rs generalizing acc with
  | nil => simp [simpleTally, modelCreditCount]
  | cons r rest ih =>
    rw [simpleTally, ih, simpleRecordStep_len,
      countP_enum_snd r.parsed_ranking
        (fun l => dictGet? labelToModel l == some m)]
    simp only [modelCreditCount, List.map_cons, List.sum_cons]
    omega

theorem simpleRecordStep_nodup (labelToModel : PyDict String)
    (pairs : List (ℕ × String)) (acc : PyDict (List ℕ))
    (h : (dictKeys acc).Nodup) :
    (dictKeys (simpleRecordStep labelToModel acc pairs)).Nodup := by
  induction pairs generalizing acc with
  | nil => simpa [simpleRecordStep] using h
  | cons p rest ih =>
    rcases p with ⟨i, l⟩
    rcases hg : dictGet? labelToModel l with _ | mm
    · rw [simpleRecordStep, hg]
      exact ih _ h
    · rw [simpleRecordStep, hg]
      exact ih _ (dictKeys_nodup_set _ _ _ h)

theorem simpleTally_nodup (labelToModel : PyDict String)
    (rs : List RankingRecord) (acc : PyDict (List ℕ))
    (h : (dictKeys acc).Nodup) :
    (dictKeys (simpleTally labelToModel acc rs)).Nodup := by
  induction rs generalizing acc with
  | nil => simpa [simpleTally] using h
  | cons r rest ih =>
    rw [simpleTally]
    exact ih _ (simpleRecordStep_nodup _ _ _ h)

theorem mem_simpleFold (l : List (String × List ℕ)) (e : AggEntry) :
    e ∈ l.foldr (fun p acc => if p.2.isEmpty then acc else simpleEntry p :: acc) [] ↔
      ∃ p, p ∈ l ∧ p.2.isEmpty = false ∧ e = simpleEntry p := by
  induction l with
  | nil => simp
  | cons p rest ih =>
    rw [List.foldr_cons]
    by_cases hp : p.2.isEmpty
    · rw [if_pos hp, ih]
      constructor
      · rintro ⟨q, hq, hq2, hq3⟩
        exact ⟨q, List.mem_cons_of_mem _ hq, hq2, hq3⟩
      · rintro ⟨q, hq, hq2, hq3⟩
        rcases List.mem_cons.mp hq with he | hm
        · rw [he, hp] at hq2
          exact absurd hq2 (by simp)
        · exact ⟨q, hm, hq2, hq3⟩
    · rw [if_neg hp]
      constructor
      · intro hmem
        rcases List.mem_cons.mp hmem with he | hm
        · exact ⟨p, List.mem_cons_self _ _, by simpa using hp, he⟩
        · rcases ih.mp hm with ⟨q, hq, hq2, hq3⟩
          exact ⟨q, List.mem_cons_of_mem _ hq, hq2, hq3⟩
      · rintro ⟨q, hq, hq2, hq3⟩
        rcases List.mem_cons.mp hq with he | hm
        · exact List.mem_cons.mpr (Or.inl (he ▸ hq3))
        · exact List.mem_cons.mpr (Or.inr (ih.mpr ⟨q, hm, hq2, hq3⟩))

theorem mem_calculate_borda {s2 : List RankingRecord} {ltm : PyDict String}
    {s1 : Option (List Stage1Result)} {e : AggEntry} :
    e ∈ calculate_borda_count s2 ltm s1 ↔ e ∈ bordaAggregate s2 ltm :=
  mem_pySortDescBy

theorem mem_calculate_mrr {s2 : List RankingRecord} {ltm : PyDict String}
    {s1 : Option (List Stage1Result)} {e : AggEntry} :
    e ∈ calculate_mrr s2 ltm s1 ↔ e ∈ mrrAggregate s2 ltm :=
  mem_pySortDescBy

theorem mem_calculate_cw {s2 : List RankingRecord} {ltm : PyDict String}
    {s1 : List Stage1Result} {e : AggEntry} :
    e ∈ calculate_confidence_weighted_rankings s2 ltm s1 ↔
      e ∈ cwAggregate s2 ltm s1 :=
  mem_pySortDescBy

theorem mem_calculate_simple {s2 : List RankingRecord} {ltm : PyDict String}
    {e : AggEntry} :
    e ∈ calculate_simple_average s2 ltm ↔ e ∈ simpleAggregate s2 ltm :=
  mem_pySortAscBy

theorem borda_models_and_counts {s2 : List RankingRecord} {ltm : PyDict String}
    {s1 : Option (List Stage1Result)} {e : AggEntry}
    (hmem : e ∈ calculate_borda_count s2 ltm s1) :
    e.model ∈ dictValues ltm ∧
      e.rankings_count = some (modelCreditCount ltm e.model s2) := by
  rw [mem_calculate_borda] at hmem
  have h1 : bordaAggregate s2 ltm =
      (bordaTally (ltm.length : ℤ) ltm ([], []) s2).1.map
        (bordaEntry (ltm.length : ℤ) ((ltm.length : ℤ) * s2.length)
          (bordaTally (ltm.length : ℤ) ltm ([], []) s2).2) := rfl
  rw [h1, List.mem_map] at hmem
  obtain ⟨p, hp, he⟩ := hmem
  have hmodel : e.model = p.1 := by rw [← he]; rfl
  have hk : p.1 ∈ dictKeys (bordaTally (ltm.length : ℤ) ltm ([], []) s2).1 :=
    List.mem_map_of_mem Prod.fst hp
  rcases bordaTally_keys _ _ _ _ _ hk with hin | him
  · exact absurd hin (by simp [dictKeys])
  · refine ⟨hmodel ▸ him, ?_⟩
    have hrc : e.rankings_count =
        some (dictGetD (bordaTally (ltm.length : ℤ) ltm ([], []) s2).2 p.1 0) := by
      rw [← he]; rfl
    rw [hrc, bordaTally_votes, hmodel]
    simp [dictGetD, dictGet?]

theorem mrr_models_and_counts {s2 : List RankingRecord} {ltm : PyDict String}
    {s1 : Option (List Stage1Result)} {e : AggEntry}
    (hmem : e ∈ calculate_mrr s2 ltm s1) :
    e.model ∈ dictValues ltm ∧
      e.rankings_count = some (modelCreditCount ltm e.model s2) := by
  rw [mem_calculate_mrr] at hmem
  have h1 : mrrAggregate s2 ltm =
      (mrrTally ltm ([], []) s2).1.map
        (mrrEntry s2.length ltm.length (mrrTally ltm ([], []) s2).2) := rfl
  rw [h1, List.mem_map] at hmem
  obtain ⟨p, hp, he⟩ := hmem
  have hmodel : e.model = p.1 := by rw [← he]; rfl
  have hk : p.1 ∈ dictKeys (mrrTally ltm ([], []) s2).1 :=
    List.mem_map_of_mem Prod.fst hp
  rcases mrrTally_keys _ _ _ _ hk with hin | him
  · exact absurd hin (by simp [dictKeys])
  · refine ⟨hmodel ▸ him, ?_⟩
    have hrc : e.rankings_count =
        some (dictGetD (mrrTally ltm ([], []) s2).2 p.1 0) := by
      rw [← he]; rfl
    rw [hrc, mrrTally_votes, hmodel]
    simp [dictGetD, dictGet?]

theorem cw_models_and_counts {s2 : List RankingRecord} {ltm : PyDict String}
    {s1 : List Stage1Result} {e : AggEntry}
    (hmem : e ∈ calculate_confidence_weighted_rankings s2 ltm s1) :
    e.model ∈ dictValues ltm ∧
      e.rankings_count = some (modelCreditCount ltm e.model s2) := by
  rw [mem_calculate_cw] at hmem
  have h1 : cwAggregate s2 ltm s1 =
      (cwTally (ltm.length : ℤ) ltm (cwConfidenceMap s1) ([], [], []) s2).1.map
        (cwEntry (ltm.length : ℤ)
          (cwTally (ltm.length : ℤ) ltm (cwConfidenceMap s1) ([], [], []) s2).2.1
          (cwTally (ltm.length : ℤ) ltm (cwConfidenceMap s1) ([], [], []) s2).2.2) := rfl
  rw [h1, List.mem_map] at hmem
  obtain ⟨p, hp, he⟩ := hmem
  have hmodel : e.model = p.1 := by rw [← he]; rfl
  have hk : p.1 ∈
      dictKeys (cwTally (ltm.length : ℤ) ltm (cwConfidenceMap s1) ([], [], []) s2).1 :=
    List.mem_map_of_mem Prod.fst hp
  rcases cwTally_keys _ _ _ _ _ _ hk with hin | him
  · exact absurd hin (by simp [dictKeys])
  · refine ⟨hmodel ▸ him, ?_⟩
    have hrc : e.rankings_count =
        some (dictGetD
          (cwTally (ltm.length : ℤ) ltm (cwConfidenceMap s1) ([], [], []) s2).2.2
          p.1 0) := by
      rw [← he]; rfl
    rw [hrc, cwTally_votes, hmodel]
    simp [dictGetD, dictGet?]

theorem simple_models_and_counts {s2 : List RankingRecord} {ltm : PyDict String}
    {e : AggEntry}
    (hmem : e ∈ calculate_simple_average s2 ltm) :
    e.model ∈ dictValues ltm ∧
      e.rankings_count = some (modelCreditCount ltm e.model s2) := by
  rw [mem_calculate_simple] at hmem
  have h1 : simpleAggregate s2 ltm =
      (simpleTally ltm [] s2).foldr
        (fun p acc => if p.2.isEmpty then acc else simpleEntry p :: acc) [] := rfl
  rw [h1, mem_simpleFold] at hmem
  obtain ⟨p, hp, hne, he⟩ := hmem
  have hmodel : e.model = p.1 := by rw [he]; rfl
  have hk : p.1 ∈ dictKeys (simpleTally ltm [] s2) :=
    List.mem_map_of_mem Prod.fst hp
  rcases simpleTally_keys _ _ _ _ hk with hin | him
  · exact absurd hin (by simp [dictKeys])
  · refine ⟨hmodel ▸ him, ?_⟩
    have hval : dictGet? (simpleTally ltm [] s2) p.1 = some p.2 :=
      dictGet?_eq_some_of_mem_nodup (simpleTally_nodup _ _ _ (by simp [dictKeys])) hp
    have hlen := simpleTally_len ltm s2 [] p.1
    rw [show dictGetD (simpleTally ltm [] s2) p.1 [] = p.2 by
      simp [dictGetD, hval]] at hlen
    have hrc : e.rankings_count = some p.2.length := by rw [he]; rfl
    rw [hrc, hmodel, hlen]
    simp [dictGetD, dictGet?]

/-- C10 (amended): for every Stage-2 list, label map, optional Stage-1
list and method name, every entry of `calculate_aggregate_rankings` names
a model that is the image of some label in the map, and its
`rankings_count` equals the number of occurrences across all parsed
rankings of labels mapping to that model — so an occurrence of an unmapped
label is never credited to any model and never creates an entry (it does,
however, occupy a ranking position; see the counterexample). -/
theorem aggregate_rankings_models_from_map (s2 : List RankingRecord)
    (ltm : PyDict String) (s1 : Option (List Stage1Result)) (method : String)
    (e : AggEntry)
    (hmem : e ∈ calculate_aggregate_rankings s2 ltm s1 method) :
    e.model ∈ dictValues ltm ∧
      e.rankings_count = some (modelCreditCount ltm e.model s2) := by
  unfold calculate_aggregate_rankings at hmem
  split_ifs at hmem with h1 h2 h3
  · exact borda_models_and_counts hmem
  · exact mrr_models_and_counts hmem
  · rcases s1 with _ | s1'
    · exact borda_models_and_counts hmem
    · exact cw_models_and_counts hmem
  · exact simple_models_and_counts hmem

/-- Witness for C10: the only entry produced by a Borda run over a map
sending `Response A` to `mA` names `mA`, a map image, with one credited
occurrence. -/
theorem aggregate_rankings_models_from_map_witness :
    ({ model := "mA", borda_score := some 1, normalized_score := some 1,
       rankings_count := some 1, average_rank := some 1 } : AggEntry).model ∈
        dictValues [("Response A", "mA")] ∧
    ({ model := "mA", borda_score := some 1, normalized_score := some 1,
       rankings_count := some 1, average_rank := some 1 } : AggEntry).rankings_count =
      some (modelCreditCount [("Response A", "mA")] "mA"
        [⟨none, none, ["Response A"], []⟩]) :=
  aggregate_rankings_models_from_map [⟨none, none, ["Response A"], []⟩]
    [("Response A", "mA")] none "borda" _ (by with_unfolding_all decide)

/-- Counterexample for C10 as stated: an occurrence of the unmapped label
`Response B` ahead of `Response A` lowers `mA`'s Borda score from 1 to 0,
so unmapped occurrences do contribute to scores (by occupying positions),
refuting the no-contribution reading. -/
theorem aggregate_unmapped_label_shifts_scores :
    ((calculate_borda_count [⟨none, none, ["Response B", "Response A"], []⟩]
        [("Response A", "mA")] none).map (fun e => (e.model, e.borda_score)) =
      [("mA", some 0)]) ∧
    ((calculate_borda_count [⟨none, none, ["Response A"], []⟩]
        [("Response A", "mA")] none).map (fun e => (e.model, e.borda_score)) =
      [("mA", some 1)]) := by
  constructor
  · with_unfolding_all rfl
  · with_unfolding_all rfl

/-! ## Claim C6 — MRR scores and ordering -/

/-- Reciprocal-rank contribution of one parsed ranking to model `m`:
the 0-indexed entry `(i, l)` contributes `1/(i+1)` (1-indexed position)
when `l` maps to `m`. -/
def mrrRecordSpecSum (labelToModel : PyDict String) (m : String)
    (r : RankingRecord) : ℚ :=
  (r.parsed_ranking.enum.map (fun p =>
    if dictGet? labelToModel p.2 == some m then 1 / ((p.1 : ℚ) + 1) else 0)).sum

/-- Total reciprocal-rank sum Σ 1/p of model `m` over all ranking
records. -/
def mrrSpecSum (labelToModel : PyDict String) (m : String)
    (rs : List RankingRecord) : ℚ :=
  (rs.map (mrrRecordSpecSum labelToModel m)).sum

theorem mrrRecordStep_rr (labelToModel : PyDict String)
    (pairs : List (ℕ × String)) (acc : PyDict ℚ × PyDict ℕ) (m : String) :
    dictGetD (mrrRecordStep labelToModel acc pairs).1 m 0 =
      dictGetD acc.1 m 0 +
        (pairs.map (fun p =>
          if dictGet? labelToModel p.2 == some m then 1 / ((p.1 : ℚ) + 1)
          else 0)).sum := by
  induction pairs generalizing acc with
  | nil => simp [mrrRecordStep]
  | cons p rest ih =>
    rcases p with ⟨i, l⟩
    rcases hg : dictGet? labelToModel l with _ | mm
    · rw [mrrRecordStep, hg, ih]
      simp only [List.map_cons, List.sum_cons, hg]
      norm_num
    · rw [mrrRecordStep, hg, ih]
      by_cases hm : mm = m
      · subst hm
        rw [dictGetD_set_self]
        simp only [List.map_cons, List.sum_cons, hg, beq_self_eq_true, if_true]
        ring
      · rw [dictGetD_set_ne _ _ _ _ _ (Ne.symm hm)]
        simp only [List.map_cons, List.sum_cons, hg]
        rw [if_neg (by simp [hm]), zero_add]

theorem mrrTally_rr (labelToModel : PyDict String)
    (rs : List RankingRecord) (acc : PyDict ℚ × PyDict ℕ) (m : String) :
    dictGetD (mrrTally labelToModel acc rs).1 m 0 =
      dictGetD acc.1 m 0 + mrrSpecSum labelToModel m rs := by
  induction rs generalizing acc with
  | nil => simp [mrrTally, mrrSpecSum]
  | cons r rest ih =>
    rw [mrrTally, ih, mrrRecordStep_rr]
    simp only [mrrSpecSum, mrrRecordSpecSum, List.map_cons, List.sum_cons]
    ring

theorem mrrRecordStep_nodup (labelToModel : PyDict String)
    (pairs : List (ℕ × String)) (acc : PyDict ℚ × PyDict ℕ)
    (h : (dictKeys acc.1).Nodup) :
    (dictKeys (mrrRecordStep labelToModel acc pairs).1).Nodup := by
  induction pairs generalizing acc with
  | nil => simpa [mrrRecordStep] using h
  | cons p rest ih =>
    rcases p with ⟨i, l⟩
    rcases hg : dictGet? labelToModel l with _ | mm
    · rw [mrrRecordStep, hg]
      exact ih _ h
    · rw [mrrRecordStep, hg]
      exact ih _ (dictKeys_nodup_set _ _ _ h)

theorem mrrTally_nodup (labelToModel : PyDict String)
    (rs : List RankingRecord) (acc : PyDict ℚ × PyDict ℕ)
    (h : (dictKeys acc.1).Nodup) :
    (dictKeys (mrrTally labelToModel acc rs).1).Nodup := by
  induction rs generalizing acc with
  | nil => simpa [mrrTally] using h
  | cons r rest ih =>
    rw [mrrTally]
    exact ih _ (mrrRecordStep_nodup _ _ _ h)

theorem pyInsertDesc_sorted {α κ : Type} [LinearOrder κ] (key : α → κ) (e : α)
    (l : List α) (h : l.Pairwise (fun a b => key b ≤ key a)) :
    (pyInsertDesc key e l).Pairwise (fun a b => key b ≤ key a) := by
  induction l with
  | nil => simp [pyInsertDesc]
  | cons x xs ih =>
    rw [List.pairwise_cons] at h
    rw [pyInsertDesc]
    split
    · rename_i hlt
      rw [List.pairwise_cons]
      refine ⟨?_, ih h.2⟩
      intro y hy
      rcases List.mem_cons.mp ((pyInsertDesc_perm key e xs).mem_iff.mp hy) with
        hye | hyx
      · rw [hye]
        exact le_of_lt hlt
      · exact h.1 y hyx
    · rename_i hge
      rw [List.pairwise_cons]
      refine ⟨?_, List.pairwise_cons.mpr h⟩
      intro y hy
      rcases List.mem_cons.mp hy with hyx | hyxs
      · exact hyx ▸ le_of_not_lt hge
      · exact le_trans (h.1 y hyxs) (le_of_not_lt hge)

theorem pySortDesc_sorted {α κ : Type} [LinearOrder κ] (key : α → κ)
    (l : List α) : (pySortDesc key l).Pairwise (fun a b => key b ≤ key a) := by
  induction l with
  | nil => simp [pySortDesc]
  | cons x xs ih =>
    rw [pySortDesc]
    exact pyInsertDesc_sorted key x _ ih

/-- C6 (amended): for every non-empty Stage-2 record list, every entry of
`calculate_mrr` carries `mrr_score = round₃((Σ 1/p) / numRecords)` — the
1-indexed positions `p` of labels mapping to the entry's model, divided by
the total number of ranking records, including records that never mention
the model — rounded to three decimal places; and the output is sorted by
`mrr_score` descending. -/
theorem calculate_mrr_spec (s2 : List RankingRecord) (ltm : PyDict String)
    (s1 : Option (List Stage1Result)) (hne : s2 ≠ []) :
    (∀ e ∈ calculate_mrr s2 ltm s1,
      e.mrr_score =
        some (pyRound (mrrSpecSum ltm e.model s2 / (s2.length : ℚ)) 3)) ∧
    (calculate_mrr s2 ltm s1).Pairwise
      (fun a b => b.mrr_score.getD 0 ≤ a.mrr_score.getD 0) := by
  constructor
  · intro e hmem
    rw [mem_calculate_mrr] at hmem
    have h1 : mrrAggregate s2 ltm =
        (mrrTally ltm ([], []) s2).1.map
          (mrrEntry s2.length ltm.length (mrrTally ltm ([], []) s2).2) := rfl
    rw [h1, List.mem_map] at hmem
    obtain ⟨p, hp, he⟩ := hmem
    have hmodel : e.model = p.1 := by rw [← he]; rfl
    have hval : dictGet? (mrrTally ltm ([], []) s2).1 p.1 = some p.2 :=
      dictGet?_eq_some_of_mem_nodup
        (mrrTally_nodup _ _ _ (by simp [dictKeys])) hp
    have hsum := mrrTally_rr ltm s2 ([], []) p.1
    rw [show dictGetD (mrrTally ltm ([], []) s2).1 p.1 0 = p.2 by
        simp [dictGetD, hval]] at hsum
    have hzero : dictGetD (([], []) : PyDict ℚ × PyDict ℕ).1 p.1 0 = 0 := rfl
    rw [hzero, zero_add] at hsum
    have hms : e.mrr_score =
        some (pyRound (if s2.length = 0 then 0 else p.2 / (s2.length : ℚ)) 3) := by
      rw [← he]; rfl
    rw [hms, if_neg (by simpa using List.length_pos.mpr hne |>.ne'), hmodel, ← hsum]
  · have h0 : calculate_mrr s2 ltm s1 =
        pySortDesc (fun e => e.mrr_score.getD 0) (mrrAggregate s2 ltm) := rfl
    rw [h0]
    exact pySortDesc_sorted _ _

/-- Witness for C6 on the single ranking `[A, B, C]` over a three-label
map. -/
theorem calculate_mrr_spec_witness :
    (∀ e ∈ calculate_mrr
        [⟨none, none, ["Response A", "Response B", "Response C"], []⟩]
        [("Response A", "mA"), ("Response B", "mB"), ("Response C", "mC")] none,
      e.mrr_score =
        some (pyRound (mrrSpecSum
          [("Response A", "mA"), ("Response B", "mB"), ("Response C", "mC")]
          e.model
          [⟨none, none, ["Response A", "Response B", "Response C"], []⟩] /
          (([⟨none, none, ["Response A", "Response B", "Response C"], []⟩] :
            List RankingRecord).length : ℚ)) 3)) ∧
    (calculate_mrr
        [⟨none, none, ["Response A", "Response B", "Response C"], []⟩]
        [("Response A", "mA"), ("Response B", "mB"), ("Response C", "mC")]
        none).Pairwise
      (fun a b => b.mrr_score.getD 0 ≤ a.mrr_score.getD 0) :=
  calculate_mrr_spec _ _ none (by decide)

/-- Counterexample for C6 as stated: with a single ranking `[A, B, C]`,
model `mC`'s returned `mrr_score` is the rounded `0.333`, not the exact
`1/3` the claim asserts. -/
theorem calculate_mrr_rounds :
    ((calculate_mrr [⟨none, none, ["Response A", "Response B", "Response C"], []⟩]
        [("Response A", "mA"), ("Response B", "mB"), ("Response C", "mC")]
        none).filterMap
      (fun e => if e.model == "mC" then e.mrr_score else none)) = [333/1000] ∧
    (333 / 1000 : ℚ) ≠ 1 / 3 := by
  constructor
  · with_unfolding_all rfl
  · with_unfolding_all decide

/-! ## Claim C1 — consensus detection -/

/-- First choices of the voting records: the head of every non-empty
parsed ranking, in order. -/
def firstChoices (rs : List RankingRecord) : List String :=
  rs.filterMap (fun r => r.parsed_ranking.head?)

theorem firstPlaceTally_voters (rs : List RankingRecord) (acc : PyDict ℕ × ℕ) :
    (firstPlaceTally acc rs).2 =
      acc.2 + (rs.filter (fun r => !r.parsed_ranking.isEmpty)).length := by
  induction rs generalizing acc with
  | nil => simp [firstPlaceTally]
  | cons r rest ih =>
    rcases hp : r.parsed_ranking with _ | ⟨c, cs⟩
    · rw [firstPlaceTally, hp, ih]
      simp [List.filter_cons, hp]
    · rw [firstPlaceTally, hp, ih]
      simp only [List.filter_cons, hp, List.isEmpty_cons, Bool.not_false, if_pos,
        List.length_cons]
      omega

theorem firstChoices_cons_empty {r : RankingRecord} {rest : List RankingRecord}
    (hp : r.parsed_ranking = []) :
    firstChoices (r :: rest) = firstChoices rest := by
  simp [firstChoices, List.filterMap_cons, hp]

theorem firstChoices_cons_head {r : RankingRecord} {rest : List RankingRecord}
    {c : String} {cs : List String} (hp : r.parsed_ranking = c :: cs) :
    firstChoices (r :: rest) = c :: firstChoices rest := by
  simp [firstChoices, List.filterMap_cons, hp]

theorem firstChoices_length (rs : List RankingRecord) :
    (firstChoices rs).length =
      (rs.filter (fun r => !r.parsed_ranking.isEmpty)).length := by
  induction rs with
  | nil => simp [firstChoices]
  | cons r rest ih =>
    rcases hp : r.parsed_ranking with _ | ⟨c, cs⟩
    · rw [firstChoices_cons_empty hp]
      simp [List.filter_cons, hp, ih]
    · rw [firstChoices_cons_head hp]
      simp only [List.filter_cons, hp, List.isEmpty_cons, Bool.not_false, if_pos,
        List.length_cons, ih]

theorem firstPlaceTally_count (rs : List RankingRecord) (acc : PyDict ℕ × ℕ)
    (l : String) :
    dictGetD (firstPlaceTally acc rs).1 l 0 =
      dictGetD acc.1 l 0 + (firstChoices rs).count l := by
  induction rs generalizing acc with
  | nil => simp [firstPlaceTally, firstChoices]
  | cons r rest ih =>
    rcases hp : r.parsed_ranking with _ | ⟨c, cs⟩
    · rw [firstPlaceTally, hp, ih, firstChoices_cons_empty hp]
    · rw [firstPlaceTally, hp, ih, firstChoices_cons_head hp, List.count_cons]
      by_cases hc : c = l
      · subst hc
        rw [dictGetD_set_self]
        simp only [beq_self_eq_true, if_true]
        omega
      · rw [dictGetD_set_ne _ _ _ _ _ (Ne.symm hc)]
        simp only [show (c == l) = false from beq_eq_false_iff_ne.mpr hc,
          Bool.false_eq_true, if_false]
        omega

theorem firstPlaceTally_keys (rs : List RankingRecord) (acc : PyDict ℕ × ℕ)
    (k : String) (h : k ∈ dictKeys (firstPlaceTally acc rs).1) :
    k ∈ dictKeys acc.1 ∨ k ∈ firstChoices rs := by
  induction rs generalizing acc with
  | nil => exact Or.inl (by simpa [firstPlaceTally] using h)
  | cons r rest ih =>
    rcases hp : r.parsed_ranking with _ | ⟨c, cs⟩
    · rw [firstPlaceTally, hp] at h
      rcases ih _ h with hin | hmem
      · exact Or.inl hin
      · exact Or.inr (by rw [firstChoices_cons_empty hp]; exact hmem)
    · rw [firstPlaceTally, hp] at h
      rcases ih _ h with hin | hmem
      · rcases (mem_dictKeys_set _ _ _ _).mp hin with hin2 | he
        · exact Or.inl hin2
        · exact Or.inr (by rw [firstChoices_cons_head hp, he]; exact List.mem_cons_self c _)
      · exact Or.inr (by rw [firstChoices_cons_head hp]; exact List.mem_cons_of_mem c hmem)

theorem firstPlaceTally_nodup (rs : List RankingRecord) (acc : PyDict ℕ × ℕ)
    (h : (dictKeys acc.1).Nodup) :
    (dictKeys (firstPlaceTally acc rs).1).Nodup := by
  induction rs generalizing acc with
  | nil => simpa [firstPlaceTally] using h
  | cons r rest ih =>
    rcases hp : r.parsed_ranking with _ | ⟨c, cs⟩
    · rw [firstPlaceTally, hp]
      exact ih _ h
    · rw [firstPlaceTally, hp]
      exact ih _ (dictKeys_nodup_set _ _ _ h)

theorem dictMaxByValue_go (d : PyDict ℕ) (b : String × ℕ) :
    ∃ k v, d.foldl (fun best p =>
        match best with
        | none => some p
        | some bb => if bb.2 < p.2 then some p else some bb) (some b) = some (k, v) ∧
      ((k, v) = b ∨ (k, v) ∈ d) ∧ b.2 ≤ v ∧ ∀ p ∈ d, p.2 ≤ v := by
  induction d generalizing b with
  | nil => exact ⟨b.1, b.2, rfl, Or.inl rfl, le_refl _, by simp⟩
  | cons q rest ih =>
    rw [List.foldl_cons]
    by_cases hq : b.2 < q.2
    · obtain ⟨k, v, hfold, hmem, hle, hall⟩ := ih q
      refine ⟨k, v, ?_, ?_, ?_, ?_⟩
      · show List.foldl _ (if b.2 < q.2 then some q else some b) rest = some (k, v)
        rw [if_pos hq]
        exact hfold
      · rcases hmem with he | hm
        · exact Or.inr (List.mem_cons.mpr (Or.inl he))
        · exact Or.inr (List.mem_cons_of_mem q hm)
      · exact le_trans (le_of_lt hq) hle
      · intro p hp
        rcases List.mem_cons.mp hp with he | hm
        · exact he ▸ hle
        · exact hall p hm
    · obtain ⟨k, v, hfold, hmem, hle, hall⟩ := ih b
      refine ⟨k, v, ?_, ?_, hle, ?_⟩
      · show List.foldl _ (if b.2 < q.2 then some q else some b) rest = some (k, v)
        rw [if_neg hq]
        exact hfold
      · rcases hmem with he | hm
        · exact Or.inl he
        · exact Or.inr (List.mem_cons_of_mem q hm)
      · intro p hp
        rcases List.mem_cons.mp hp with he | hm
        · exact he ▸ le_trans (le_of_not_lt hq) hle
        · exact hall p hm

theorem dictMaxByValue_spec (d : PyDict ℕ) (hne : d ≠ []) :
    ∃ k v, dictMaxByValue d = some (k, v) ∧ (k, v) ∈ d ∧ ∀ p ∈ d, p.2 ≤ v := by
  rcases d with _ | ⟨q, rest⟩
  · exact absurd rfl hne
  · obtain ⟨k, v, hfold, hmem, hle, hall⟩ := dictMaxByValue_go rest q
    refine ⟨k, v, ?_, ?_, ?_⟩
    · rw [dictMaxByValue, List.foldl_cons]
      exact hfold
    · rcases hmem with he | hm
      · exact he ▸ List.mem_cons_self q rest
      · exact List.mem_cons_of_mem q hm
    · intro p hp
      rcases List.mem_cons.mp hp with he | hm
      · exact he ▸ hle
      · exact hall p hm

theorem detect_consensus_zero_voters (rs : List RankingRecord)
    (ltm : PyDict String) (hne : rs.isEmpty = false)
    (hv : (firstPlaceTally ([], 0) rs).2 = 0) :
    detect_consensus rs ltm =
      { has_consensus := false, agreement_score := 0, top_model := none
        top_votes := 0, total_voters := 0, early_exit_eligible := false } := by
  unfold detect_consensus
  simp only [hne, Bool.false_eq_true, if_false, hv, beq_self_eq_true, if_true]

theorem detect_consensus_max (rs : List RankingRecord) (ltm : PyDict String)
    (k : String) (v : ℕ) (hne : rs.isEmpty = false)
    (hv : ((firstPlaceTally ([], 0) rs).2 == 0) = false)
    (hmax : dictMaxByValue (firstPlaceTally ([], 0) rs).1 = some (k, v)) :
    detect_consensus rs ltm =
      { has_consensus := v == (firstPlaceTally ([], 0) rs).2 &&
          decide (1 < (firstPlaceTally ([], 0) rs).2)
        agreement_score :=
          pyRound ((v : ℚ) / (((firstPlaceTally ([], 0) rs).2 : ℕ) : ℚ)) 2
        top_model := dictGet? ltm k
        top_votes := v
        total_voters := (firstPlaceTally ([], 0) rs).2
        early_exit_eligible :=
          decide (3/4 ≤ (v : ℚ) / (((firstPlaceTally ([], 0) rs).2 : ℕ) : ℚ)) } := by
  unfold detect_consensus
  simp only [hne, Bool.false_eq_true, if_false, hv, hmax]

/-- C1 (amended): `detect_consensus` counts as voters exactly the records
with a non-empty parsed ranking, its `top_votes` is the maximal number of
first-place votes over all labels (attained by some cast first choice
whenever there are voters), the returned `agreement_score` is
`top_votes / total_voters` rounded half-to-even to two decimal places, and
`has_consensus` holds iff `top_votes = total_voters` with more than one
voter. -/
theorem detect_consensus_props (rs : List RankingRecord) (ltm : PyDict String) :
    (detect_consensus rs ltm).total_voters =
        (rs.filter (fun r => !r.parsed_ranking.isEmpty)).length ∧
    (∀ l, (firstChoices rs).count l ≤ (detect_consensus rs ltm).top_votes) ∧
    ((detect_consensus rs ltm).total_voters ≠ 0 →
      ∃ l ∈ firstChoices rs,
        (firstChoices rs).count l = (detect_consensus rs ltm).top_votes) ∧
    (detect_consensus rs ltm).agreement_score =
      pyRound (((detect_consensus rs ltm).top_votes : ℚ) /
        ((detect_consensus rs ltm).total_voters : ℚ)) 2 ∧
    ((detect_consensus rs ltm).has_consensus = true ↔
      (detect_consensus rs ltm).top_votes = (detect_consensus rs ltm).total_voters ∧
        1 < (detect_consensus rs ltm).total_voters) := by
  by_cases hemp : rs = []
  · subst hemp
    refine ⟨rfl, ?_, ?_, ?_, ?_⟩
    · intro l
      show ([] : List String).count l ≤ 0
      simp
    · intro h0
      exact absurd rfl h0
    · show (0 : ℚ) = pyRound (((0 : ℕ) : ℚ) / ((0 : ℕ) : ℚ)) 2
      with_unfolding_all decide
    · show false = true ↔ (0 = 0 ∧ 1 < 0)
      simp
  · have hne : rs.isEmpty = false := List.isEmpty_eq_false.mpr hemp
    by_cases hv : (firstPlaceTally ([], 0) rs).2 = 0
    · rw [detect_consensus_zero_voters rs ltm hne hv]
      have hvoters := firstPlaceTally_voters rs ([], 0)
      have hflen : (rs.filter (fun r => !r.parsed_ranking.isEmpty)).length = 0 := by
        omega
      have hfc : firstChoices rs = [] :=
        List.length_eq_zero.mp (by rw [firstChoices_length, hflen])
      refine ⟨hflen.symm, ?_, ?_, ?_, ?_⟩
      · intro l
        rw [hfc]
        simp
      · intro h0
        exact absurd rfl h0
      · show (0 : ℚ) = pyRound (((0 : ℕ) : ℚ) / ((0 : ℕ) : ℚ)) 2
        with_unfolding_all decide
      · show false = true ↔ (0 = 0 ∧ 1 < 0)
        simp
    · have hvb : ((firstPlaceTally ([], 0) rs).2 == 0) = false := by
        simpa using hv
      have hdne : (firstPlaceTally ([], 0) rs).1 ≠ [] := by
        intro hd
        have hvoters := firstPlaceTally_voters rs ([], 0)
        have hlen : (firstChoices rs).length ≠ 0 := by
          rw [firstChoices_length]
          omega
        rcases hfc : firstChoices rs with _ | ⟨c, cs⟩
        · exact hlen (by rw [hfc]; rfl)
        · have hcount := firstPlaceTally_count rs ([], 0) c
          rw [hd] at hcount
          have hcpos : 0 < (firstChoices rs).count c :=
            List.count_pos_iff.mpr (by rw [hfc]; exact List.mem_cons_self _ _)
          have hz : dictGetD ([] : PyDict ℕ) c 0 = 0 := rfl
          rw [hz] at hcount
          omega
      obtain ⟨k, v, hmax, hmem, hall⟩ := dictMaxByValue_spec _ hdne
      rw [detect_consensus_max rs ltm k v hne hvb hmax]
      dsimp only
      have hvoters := firstPlaceTally_voters rs ([], 0)
      have hnodup := firstPlaceTally_nodup rs ([], 0) (by simp [dictKeys])
      refine ⟨by omega, ?_, ?_, rfl, ?_⟩
      · intro l
        have hc := firstPlaceTally_count rs ([], 0) l
        have hz : dictGetD ([] : PyDict ℕ) l 0 = 0 := rfl
        rw [hz] at hc
        show (firstChoices rs).count l ≤ v
        rcases ho : dictGet? (firstPlaceTally ([], 0) rs).1 l with _ | w
        · rw [show dictGetD (firstPlaceTally ([], 0) rs).1 l 0 = 0 by
            simp [dictGetD, ho]] at hc
          omega
        · have hw := hall _ (mem_of_dictGet?_eq_some ho)
          rw [show dictGetD (firstPlaceTally ([], 0) rs).1 l 0 = w by
            simp [dictGetD, ho]] at hc
          omega
      · intro h0
        refine ⟨k, ?_, ?_⟩
        · have hk : k ∈ dictKeys (firstPlaceTally ([], 0) rs).1 :=
            List.mem_map_of_mem Prod.fst hmem
          rcases firstPlaceTally_keys rs ([], 0) k hk with hin | hmemf
          · exact absurd hin (by simp [dictKeys])
          · exact hmemf
        · have hgv : dictGet? (firstPlaceTally ([], 0) rs).1 k = some v :=
            dictGet?_eq_some_of_mem_nodup hnodup hmem
          have hc := firstPlaceTally_count rs ([], 0) k
          have hz : dictGetD ([] : PyDict ℕ) k 0 = 0 := rfl
          rw [hz, show dictGetD (firstPlaceTally ([], 0) rs).1 k 0 = v by
            simp [dictGetD, hgv]] at hc
          omega
      · show (v == (firstPlaceTally ([], 0) rs).2 &&
            decide (1 < (firstPlaceTally ([], 0) rs).2)) = true ↔ _
        simp [Bool.and_eq_true, beq_iff_eq, decide_eq_true_iff]

/-- Witness for C1: with first choices `A, A, B` the top label `A` attains
the maximal two first-place votes. -/
theorem detect_consensus_props_witness :
    ∃ l ∈ firstChoices
        [⟨none, none, ["Response A"], []⟩, ⟨none, none, ["Response A"], []⟩,
         ⟨none, none, ["Response B"], []⟩],
      (firstChoices
        [⟨none, none, ["Response A"], []⟩, ⟨none, none, ["Response A"], []⟩,
         ⟨none, none, ["Response B"], []⟩]).count l =
      (detect_consensus
        [⟨none, none, ["Response A"], []⟩, ⟨none, none, ["Response A"], []⟩,
         ⟨none, none, ["Response B"], []⟩]
        [("Response A", "mA"), ("Response B", "mB")]).top_votes :=
  (detect_consensus_props _ _).2.2.1 (by with_unfolding_all decide)

/-- Counterexample for C1 as stated: with first-place votes 2 of 3, the
returned `agreement_score` is the rounded `0.67`, not the exact `2/3` the
claim asserts. -/
theorem detect_consensus_rounds :
    (detect_consensus
        [⟨none, none, ["Response A"], []⟩, ⟨none, none, ["Response A"], []⟩,
         ⟨none, none, ["Response B"], []⟩]
        [("Response A", "mA"), ("Response B", "mB")]).agreement_score = 67/100 ∧
    (67/100 : ℚ) ≠ 2/3 := by
  constructor
  · with_unfolding_all rfl
  · with_unfolding_all decide

/-! ## Claim C9 — chairman by highest confidence -/

/-- Self-confidence with absent (or `None`) confidence read as 0, the
claim's reading of `x.get("confidence", 0)`. -/
def selfConfOrZero (r : Stage1Result) : ℤ :=
  match r.confidence with
  | some (some c) => c
  | _ => 0

/-- First element attaining the maximal key (Python `max` tie-break). -/
def firstMaxBy (key : Stage1Result → ℤ) : List Stage1Result → Option Stage1Result
  | [] => none
  | x :: xs =>
    match firstMaxBy key xs with
    | none => some x
    | some y => some (if key x < key y then y else x)

theorem chairmanConfKey_eq {r : Stage1Result} (h : r.confidence ≠ some none) :
    chairmanConfKey r = some (selfConfOrZero r) := by
  rcases hc : r.confidence with _ | v
  · simp [chairmanConfKey, selfConfOrZero, hc]
  · rcases v with _ | c
    · exact absurd hc h
    · simp [chairmanConfKey, selfConfOrZero, hc]

theorem firstMaxBy_cons_cons (key : Stage1Result → ℤ) (b y : Stage1Result)
    (ys : List Stage1Result) :
    firstMaxBy key ((if key b < key y then y else b) :: ys) =
      firstMaxBy key (b :: y :: ys) := by
  show (match firstMaxBy key ys with
      | none => some (if key b < key y then y else b)
      | some z => some (if key (if key b < key y then y else b) < key z then z
          else (if key b < key y then y else b))) = _
  rcases hys : firstMaxBy key ys with _ | z
  · show some (if key b < key y then y else b) =
      match (match firstMaxBy key ys with
        | none => some y
        | some z => some (if key y < key z then z else y)) with
      | none => some b
      | some w => some (if key b < key w then w else b)
    rw [hys]
  · show some (if key (if key b < key y then y else b) < key z then z
        else (if key b < key y then y else b)) =
      match (match firstMaxBy key ys with
        | none => some y
        | some z => some (if key y < key z then z else y)) with
      | none => some b
      | some w => some (if key b < key w then w else b)
    rw [hys]
    show _ = some (if key b < key (if key y < key z then z else y)
      then (if key y < key z then z else y) else b)
    split_ifs <;> first | rfl | omega
  
theorem firstMaxBy_spec (key : Stage1Result → ℤ) (l : List Stage1Result)
    (hne : l ≠ []) :
    ∃ r, firstMaxBy key l = some r ∧ r ∈ l ∧ ∀ x ∈ l, key x ≤ key r := by
  induction l with
  | nil => exact absurd rfl hne
  | cons x xs ih =>
    by_cases hxs : xs = []
    · subst hxs
      exact ⟨x, rfl, List.mem_cons_self _ _, by
        intro z hz
        rw [List.mem_singleton.mp hz]⟩
    · obtain ⟨r, hr, hrm, hrmax⟩ := ih hxs
      refine ⟨if key x < key r then r else x, ?_, ?_, ?_⟩
      · rw [firstMaxBy, hr]
      · split_ifs
        · exact List.mem_cons_of_mem x hrm
        · exact List.mem_cons_self _ _
      · intro z hz
        rcases List.mem_cons.mp hz with he | hm
        · split_ifs with hlt
          · exact he ▸ le_of_lt hlt
          · exact he ▸ le_refl _
        · split_ifs with hlt
          · exact hrmax z hm
          · exact le_trans (hrmax z hm) (le_of_not_lt hlt)

theorem pyMaxGo_eq_firstMax (xs : List Stage1Result) (best : Stage1Result)
    (hb : best.confidence ≠ some none)
    (hxs : ∀ r ∈ xs, r.confidence ≠ some none) :
    pyMaxGo chairmanConfKey best xs =
      .ok ((firstMaxBy selfConfOrZero (best :: xs)).getD best) := by
  induction xs generalizing best with
  | nil => rfl
  | cons y ys ih =>
    have hy : y.confidence ≠ some none := hxs y (List.mem_cons_self _ _)
    rw [pyMaxGo, chairmanConfKey_eq hy, chairmanConfKey_eq hb]
    show pyMaxGo chairmanConfKey
        (if selfConfOrZero best < selfConfOrZero y then y else best) ys = _
    have hb' : (if selfConfOrZero best < selfConfOrZero y then y
        else best).confidence ≠ some none := by
      split_ifs
      · exact hy
      · exact hb
    rw [ih _ hb' (fun r hr => hxs r (List.mem_cons_of_mem y hr)),
      firstMaxBy_cons_cons]
    obtain ⟨r, hr, -, -⟩ :=
      firstMaxBy_spec selfConfOrZero (best :: y :: ys) (List.cons_ne_nil _ _)
    rw [hr]
    rfl

/-- C9 (amended): on a non-empty Stage-1 list in which no entry stores a
`None` confidence value, `select_rotating_chairman` with the
`highest_confidence` policy returns (without failing) the model of the
first entry attaining the maximal self-confidence, an absent confidence
counting as 0.  (Entries that do store `None` make the underlying `max`
comparison raise a `TypeError`; see the counterexample.) -/
theorem select_highest_confidence_spec (s1 : List Stage1Result)
    (agg : List AggEntry) (rp : List Stage1Result → String)
    (hne : s1 ≠ []) (hok : ∀ r ∈ s1, r.confidence ≠ some none) :
    ∃ r, firstMaxBy selfConfOrZero s1 = some r ∧ r ∈ s1 ∧
      select_rotating_chairman s1 agg "highest_confidence" rp =
        Except.ok r.model ∧
      ∀ x ∈ s1, selfConfOrZero x ≤ selfConfOrZero r := by
  obtain ⟨r, hr, hrm, hrmax⟩ := firstMaxBy_spec selfConfOrZero s1 hne
  refine ⟨r, hr, hrm, ?_, hrmax⟩
  rcases s1 with _ | ⟨x, xs⟩
  · exact absurd rfl hne
  · show ((pyMax chairmanConfKey (x :: xs)).map (·.model)) = Except.ok r.model
    rw [show pyMax chairmanConfKey (x :: xs) = pyMaxGo chairmanConfKey x xs from rfl,
      pyMaxGo_eq_firstMax xs x (hok x (List.mem_cons_self _ _))
        (fun q hq => hok q (List.mem_cons_of_mem x hq)),
      hr]
    rfl

/-- Witness for C9 at a list whose maximal confidence 8 is attained first
by model `b`. -/
theorem select_highest_confidence_spec_witness :
    ∃ r, firstMaxBy selfConfOrZero
        [⟨"a", "", some (some 3)⟩, ⟨"b", "", some (some 8)⟩, ⟨"c", "", none⟩] =
          some r ∧
      r ∈ [⟨"a", "", some (some 3)⟩, ⟨"b", "", some (some 8)⟩,
        (⟨"c", "", none⟩ : Stage1Result)] ∧
      select_rotating_chairman
          [⟨"a", "", some (some 3)⟩, ⟨"b", "", some (some 8)⟩, ⟨"c", "", none⟩]
          [] "highest_confidence" (fun _ => "") = Except.ok r.model ∧
      ∀ x ∈ [⟨"a", "", some (some 3)⟩, ⟨"b", "", some (some 8)⟩,
          (⟨"c", "", none⟩ : Stage1Result)],
        selfConfOrZero x ≤ selfConfOrZero r :=
  select_highest_confidence_spec _ [] (fun _ => "") (by decide) (by decide)

/-- Counterexample for C9 as stated: a Stage-1 entry whose confidence is
stored as `None` (exactly what Stage 1 produces when confidence parsing
fails) makes the `highest_confidence` policy raise a `TypeError` instead
of returning a model. -/
theorem select_highest_confidence_raises :
    select_rotating_chairman
        [⟨"a", "", some none⟩, ⟨"b", "", some (some 7)⟩] []
        "highest_confidence" (fun _ => "") =
      Except.error "TypeError: comparison with None" := by
  rfl

/-! ## Claim C8 — confidence-mismatch signals -/

theorem mem_foldr_append {α β : Type} (f : β → List α) (l : List β) (x : α) :
    x ∈ l.foldr (fun b acc => f b ++ acc) [] ↔ ∃ b ∈ l, x ∈ f b := by
  induction l with
  | nil => simp
  | cons b rest ih =>
    simp only [List.foldr_cons, List.mem_append, ih, List.mem_cons]
    constructor
    · rintro (hx | ⟨q, hq, hxq⟩)
      · exact ⟨b, Or.inl rfl, hx⟩
      · exact ⟨q, Or.inr hq, hxq⟩
    · rintro ⟨q, hq | hq, hxq⟩
      · exact Or.inl (hq ▸ hxq)
      · exact Or.inr ⟨q, hq, hxq⟩

theorem mem_hallMismatchSignals (cm pm : PyDict ℚ) (n : ℕ) (th : ℚ)
    (s : HSignal) :
    s ∈ hallMismatchSignals cm pm n th ↔
      ∃ p, p ∈ cm ∧ ∃ r, dictGet? pm p.1 = some r ∧
        th / 10 < p.2 / 10 - (((n : ℚ) - r + 1) / (n : ℚ)) ∧
        s = { model := p.1, signal_type := "confidence_mismatch"
              severity :=
                if 1/2 < p.2 / 10 - (((n : ℚ) - r + 1) / (n : ℚ)) then "high"
                else if 3/10 < p.2 / 10 - (((n : ℚ) - r + 1) / (n : ℚ)) then
                  "medium"
                else "low" } := by
  induction cm with
  | nil => simp [hallMismatchSignals]
  | cons p rest ih =>
    rw [hallMismatchSignals, List.foldr_cons]
    rw [show rest.foldr _ [] = hallMismatchSignals rest pm n th from rfl]
    rcases hg : dictGet? pm p.1 with _ | r
    · dsimp only
      rw [ih]
      constructor
      · rintro ⟨q, hq, hr⟩
        exact ⟨q, List.mem_cons_of_mem p hq, hr⟩
      · rintro ⟨q, hq, r', hr', hcond, he⟩
        rcases List.mem_cons.mp hq with heq | hm
        · rw [heq] at hr'
          rw [hg] at hr'
          exact absurd hr' (by simp)
        · exact ⟨q, hm, r', hr', hcond, he⟩
    · dsimp only
      by_cases hcond : th / 10 < p.2 / 10 - (((n : ℚ) - r + 1) / (n : ℚ))
      · rw [if_pos hcond]
        constructor
        · intro hmem
          rcases List.mem_cons.mp hmem with heq | hm
          · exact ⟨p, List.mem_cons_self _ _, r, hg, hcond, heq⟩
          · obtain ⟨q, hq, hr⟩ := ih.mp hm
            exact ⟨q, List.mem_cons_of_mem p hq, hr⟩
        · rintro ⟨q, hq, r', hr', hcond', he⟩
          rcases List.mem_cons.mp hq with heq | hm
          · subst heq
            rw [hg] at hr'
            have hrr : r' = r := Option.some.inj hr'.symm
            subst hrr
            exact List.mem_cons.mpr (Or.inl he)
          · exact List.mem_cons.mpr (Or.inr (ih.mpr ⟨q, hm, r', hr', hcond', he⟩))
      · rw [if_neg hcond]
        rw [ih]
        constructor
        · rintro ⟨q, hq, hr⟩
          exact ⟨q, List.mem_cons_of_mem p hq, hr⟩
        · rintro ⟨q, hq, r', hr', hcond', he⟩
          rcases List.mem_cons.mp hq with heq | hm
          · subst heq
            rw [hg] at hr'
            have hrr : r' = r := Option.some.inj hr'.symm
            subst hrr
            exact absurd hcond' hcond
          · exact ⟨q, hm, r', hr', hcond', he⟩

theorem hallRejectionSignal_type (er : PyDict (List String))
    (m2l : PyDict String) (th : ℚ) (m : String) (s : HSignal)
    (h : s ∈ hallRejectionSignal er m2l th m) :
    s.signal_type = "peer_rejection" := by
  unfold hallRejectionSignal at h
  rcases hg : dictGet? m2l m with _ | label <;> rw [hg] at h
  · simp at h
  · dsimp only at h
    split at h
    · simp at h
    · split at h
      · split at h
        · rw [List.mem_singleton.mp h]
        · simp at h
      · simp at h

theorem hallOutlierSignal_type (er : PyDict (List String))
    (m2l : PyDict String) (th : ℚ) (m : String) (s : HSignal)
    (h : s ∈ hallOutlierSignal er m2l th m) :
    s.signal_type = "outlier" := by
  unfold hallOutlierSignal at h
  rcases hg : dictGet? m2l m with _ | label <;> rw [hg] at h
  · simp at h
  · dsimp only at h
    split at h
    · simp at h
    · split at h
      · split at h
        · rw [List.mem_singleton.mp h]
        · simp at h
      · simp at h

theorem rubricFold_type (ltm : PyDict String) (l : List (String × PyDict ℤ))
    (s : HSignal)
    (h : s ∈ l.foldr (fun p acc =>
      match dictGet? ltm p.1 with
      | none => acc
      | some model =>
        if model == "" then acc
        else
          match ((dictGet? p.2 "accuracy").or (dictGet? p.2 "factual_accuracy") :
              Option ℤ) with
          | none => acc
          | some accuracy =>
            if accuracy ≤ 3 then
              { model := model
                signal_type := "low_accuracy_score"
                severity := if accuracy ≤ 2 then "medium" else "low" } :: acc
            else acc) []) :
    s.signal_type = "low_accuracy_score" := by
  induction l with
  | nil => simp at h
  | cons p rest ih =>
    rw [List.foldr_cons] at h
    rcases hg : dictGet? ltm p.1 with _ | model <;> rw [hg] at h
    · exact ih h
    · dsimp only at h
      split at h
      · exact ih h
      · rcases ha : ((dictGet? p.2 "accuracy").or (dictGet? p.2 "factual_accuracy") :
            Option ℤ) with _ | accuracy <;> rw [ha] at h
        · exact ih h
        · dsimp only at h
          split at h
          · rcases List.mem_cons.mp h with heq | hm
            · rw [heq]
            · exact ih hm
          · exact ih h

theorem hallRubricSignalsOfRecord_type (ltm : PyDict String) (r : RankingRecord)
    (s : HSignal) (h : s ∈ hallRubricSignalsOfRecord ltm r) :
    s.signal_type = "low_accuracy_score" := by
  unfold hallRubricSignalsOfRecord at h
  split at h
  · simp at h
  · exact rubricFold_type ltm r.rubric_scores s h

theorem hallRubricSignals_type (ltm : PyDict String) (s2 : List RankingRecord)
    (s : HSignal) (h : s ∈ hallRubricSignals ltm s2) :
    s.signal_type = "low_accuracy_score" := by
  unfold hallRubricSignals at h
  obtain ⟨r, hr, hs⟩ := (mem_foldr_append _ _ _).mp h
  exact hallRubricSignalsOfRecord_type ltm r s hs

theorem hallConfidenceMap_nodup_go (s1 : List Stage1Result) (acc : PyDict ℚ)
    (h : (dictKeys acc).Nodup) :
    (dictKeys (s1.foldl (fun acc r =>
      match r.confidence.join with
      | some c => dictSet acc r.model (c : ℚ)
      | none => acc) acc)).Nodup := by
  induction s1 generalizing acc with
  | nil => simpa using h
  | cons r rest ih =>
    rw [List.foldl_cons]
    rcases hj : r.confidence.join with _ | c
    · exact ih _ h
    · exact ih _ (dictKeys_nodup_set _ _ _ h)

theorem hallConfidenceMap_nodup (s1 : List Stage1Result) :
    (dictKeys (hallConfidenceMap s1)).Nodup :=
  hallConfidenceMap_nodup_go s1 [] (by simp [dictKeys])

theorem mem_signals_mismatch_iff (s1 : List Stage1Result)
    (s2 : List RankingRecord) (agg : List AggEntry) (ltm : PyDict String)
    (th : Option (PyDict ℚ)) (s : HSignal)
    (hty : s.signal_type = "confidence_mismatch") :
    s ∈ (detect_hallucinations s1 s2 agg ltm th).signals ↔
      s ∈ hallMismatchSignals (hallConfidenceMap s1) (hallPositionMap agg)
        s1.length (dictGetD (th.getD []) "confidence_mismatch" 3) := by
  have hsig : (detect_hallucinations s1 s2 agg ltm th).signals =
      ((hallMismatchSignals (hallConfidenceMap s1) (hallPositionMap agg)
        s1.length (dictGetD (th.getD []) "confidence_mismatch" 3)
      ++ (s1.map (·.model)).foldr (fun m acc =>
            hallRejectionSignal (evaluatorRankings s2) (modelToLabel ltm)
              (dictGetD (th.getD []) "peer_rejection" (7/10)) m ++ acc) [])
      ++ (s1.map (·.model)).foldr (fun m acc =>
            hallOutlierSignal (evaluatorRankings s2) (modelToLabel ltm)
              (dictGetD (th.getD []) "rank_variance" 2) m ++ acc) [])
      ++ hallRubricSignals ltm s2 := rfl
  rw [hsig]
  constructor
  · intro hmem
    rcases List.mem_append.mp hmem with hABC | hD
    · rcases List.mem_append.mp hABC with hAB | hC
      · rcases List.mem_append.mp hAB with hA | hB
        · exact hA
        · exfalso
          obtain ⟨q, hq, hsq⟩ := (mem_foldr_append _ _ _).mp hB
          have := hallRejectionSignal_type _ _ _ _ _ hsq
          rw [hty] at this
          exact absurd this (by decide)
      · exfalso
        obtain ⟨q, hq, hsq⟩ := (mem_foldr_append _ _ _).mp hC
        have := hallOutlierSignal_type _ _ _ _ _ hsq
        rw [hty] at this
        exact absurd this (by decide)
    · exfalso
      have := hallRubricSignals_type _ _ _ hD
      rw [hty] at this
      exact absurd this (by decide)
  · intro hA
    exact List.mem_append.mpr (Or.inl (List.mem_append.mpr
      (Or.inl (List.mem_append.mpr (Or.inl hA)))))

/-- C8: a model with both a recorded self-confidence `c` and an average
peer rank `r` receives a `confidence_mismatch` signal iff
`c/10 − (N − r + 1)/N > threshold/10` (with `N` the number of Stage-1
results and threshold defaulting to 3.0), and any such signal carries
severity high when the mismatch exceeds 0.5, medium when it exceeds 0.3,
and low otherwise.  In particular (witness) a model with confidence 9 and
average peer rank 3 of 3 is flagged with severity high ≥ medium. -/
theorem detect_hallucinations_confidence_mismatch
    (s1 : List Stage1Result) (s2 : List RankingRecord) (agg : List AggEntry)
    (ltm : PyDict String) (th : Option (PyDict ℚ)) (m : String) (c r : ℚ)
    (hc : dictGet? (hallConfidenceMap s1) m = some c)
    (hr : dictGet? (hallPositionMap agg) m = some r) :
    ((∃ s ∈ (detect_hallucinations s1 s2 agg ltm th).signals,
        s.model = m ∧ s.signal_type = "confidence_mismatch") ↔
      dictGetD (th.getD []) "confidence_mismatch" 3 / 10 <
        c / 10 - (((s1.length : ℚ) - r + 1) / (s1.length : ℚ))) ∧
    ∀ s ∈ (detect_hallucinations s1 s2 agg ltm th).signals,
      s.model = m → s.signal_type = "confidence_mismatch" →
      s.severity =
        (if 1/2 < c / 10 - (((s1.length : ℚ) - r + 1) / (s1.length : ℚ)) then
          "high"
         else if 3/10 <
            c / 10 - (((s1.length : ℚ) - r + 1) / (s1.length : ℚ)) then "medium"
         else "low") := by
  constructor
  · constructor
    · rintro ⟨s, hs, hsm, hty⟩
      rw [mem_signals_mismatch_iff s1 s2 agg ltm th s hty] at hs
      obtain ⟨p, hp, r', hr', hcond, he⟩ := (mem_hallMismatchSignals _ _ _ _ _).mp hs
      have hpm : p.1 = m := by
        rw [he] at hsm
        exact hsm
      have hpc : p.2 = c := by
        have := dictGet?_eq_some_of_mem_nodup (hallConfidenceMap_nodup s1)
          (show (p.1, p.2) ∈ hallConfidenceMap s1 from hp)
        rw [hpm, hc] at this
        exact (Option.some.inj this).symm
      rw [hpm] at hr'
      have hrr : r' = r := by
        rw [hr] at hr'
        exact (Option.some.inj hr').symm
      rw [← hpc, ← hrr]
      exact hcond
    · intro hcond
      refine ⟨{ model := m, signal_type := "confidence_mismatch"
                severity :=
                  if 1/2 < c / 10 - (((s1.length : ℚ) - r + 1) / (s1.length : ℚ))
                  then "high"
                  else if 3/10 <
                      c / 10 - (((s1.length : ℚ) - r + 1) / (s1.length : ℚ)) then
                    "medium"
                  else "low" }, ?_, rfl, rfl⟩
      rw [mem_signals_mismatch_iff _ _ _ _ _ _ rfl]
      exact (mem_hallMismatchSignals _ _ _ _ _).mpr
        ⟨(m, c), mem_of_dictGet?_eq_some hc, r, hr, hcond, rfl⟩
  · intro s hs hsm hty
    rw [mem_signals_mismatch_iff s1 s2 agg ltm th s hty] at hs
    obtain ⟨p, hp, r', hr', hcond, he⟩ := (mem_hallMismatchSignals _ _ _ _ _).mp hs
    have hpm : p.1 = m := by
      rw [he] at hsm
      exact hsm
    have hpc : p.2 = c := by
      have := dictGet?_eq_some_of_mem_nodup (hallConfidenceMap_nodup s1)
        (show (p.1, p.2) ∈ hallConfidenceMap s1 from hp)
      rw [hpm, hc] at this
      exact (Option.some.inj this).symm
    rw [hpm] at hr'
    have hrr : r' = r := by
      rw [hr] at hr'
      exact (Option.some.inj hr').symm
    rw [he]
    rw [hpc, hrr]

/-- Witness for C8, the spec's Scenario D: model `X` with self-confidence
9 and average peer rank 3 of 3 is flagged (mismatch `17/30 > 0.3`), and
every such signal has severity `"high"` (≥ medium). -/
theorem detect_hallucinations_confidence_mismatch_witness :
    (∃ s ∈ (detect_hallucinations
        [⟨"X", "", some (some 9)⟩, ⟨"Y", "", some (some 5)⟩,
         ⟨"Z", "", some (some 5)⟩]
        []
        [{ model := "X", average_rank := some 3 },
         { model := "Y", average_rank := some 1 },
         { model := "Z", average_rank := some 2 }]
        [("Response A", "X"), ("Response B", "Y"), ("Response C", "Z")]
        none).signals,
      s.model = "X" ∧ s.signal_type = "confidence_mismatch") ∧
    ∀ s ∈ (detect_hallucinations
        [⟨"X", "", some (some 9)⟩, ⟨"Y", "", some (some 5)⟩,
         ⟨"Z", "", some (some 5)⟩]
        []
        [{ model := "X", average_rank := some 3 },
         { model := "Y", average_rank := some 1 },
         { model := "Z", average_rank := some 2 }]
        [("Response A", "X"), ("Response B", "Y"), ("Response C", "Z")]
        none).signals,
      s.model = "X" → s.signal_type = "confidence_mismatch" →
      s.severity = "high" := by
  have h := detect_hallucinations_confidence_mismatch
    [⟨"X", "", some (some 9)⟩, ⟨"Y", "", some (some 5)⟩, ⟨"Z", "", some (some 5)⟩]
    []
    [{ model := "X", average_rank := some 3 },
     { model := "Y", average_rank := some 1 },
     { model := "Z", average_rank := some 2 }]
    [("Response A", "X"), ("Response B", "Y"), ("Response C", "Z")]
    none "X" 9 3 (by with_unfolding_all rfl) (by with_unfolding_all rfl)
  refine ⟨h.1.mpr (by with_unfolding_all decide), ?_⟩
  intro s hs hm hty
  have := h.2 s hs hm hty
  rw [this]
  with_unfolding_all decide

/-! ## Claim C5 — ranking extraction priority order -/

/-- Ranking section as the (amended) claim describes it: the text after
the first `"FINAL RANKING:"` marker, up to the next occurrence of the
marker (or the end).  This is what `split(...)[1]` yields. -/
def rankingSection (cs : List Char) : List Char :=
  match findSub finalMarker cs with
  | none => []
  | some i =>
    let after := cs.drop (i + finalMarker.length)
    after.take ((findSub finalMarker after).getD after.length)

theorem pySplitMarker_ne_nil (cs : List Char) : pySplitMarker cs ≠ [] := by
  rw [pySplitMarker_eq]
  rcases hfs : findSub finalMarker cs with _ | i
  · exact List.cons_ne_nil _ _
  · exact List.cons_ne_nil _ _

theorem pySplitMarker_head (cs : List Char) :
    (pySplitMarker cs).headD [] =
      cs.take ((findSub finalMarker cs).getD cs.length) := by
  rw [pySplitMarker_eq]
  rcases hfs : findSub finalMarker cs with _ | i
  · show cs = cs.take cs.length
    exact (List.take_length cs).symm
  · rfl

/-- C5 (amended): `parse_ranking_from_text` is total (it is a Lean
function) and follows the priority order: when `"FINAL RANKING:"` occurs,
it works on the section between the first marker and the next marker
occurrence (or the end) — the numbered `"<n>. Response <Letter>"` matches
of that section if there are any, else all `"Response <Letter>"`
occurrences of that section in order; only when the marker is absent does
it return the `"Response <Letter>"` occurrences of the entire text. -/
theorem parse_ranking_from_text_spec (cs : List Char) :
    (∀ i, findSub finalMarker cs = some i →
      parseRankingChars cs =
        (if !(findAllNumbered (rankingSection cs)).isEmpty then
          (findAllNumbered (rankingSection cs)).map searchRespGroup
         else findAllResp (rankingSection cs))) ∧
    (findSub finalMarker cs = none → parseRankingChars cs = findAllResp cs) := by
  constructor
  · intro i h
    have hcon : containsSub finalMarker cs = true := by
      rw [containsSub, h]
      rfl
    have hparts : pySplitMarker cs =
        cs.take i :: pySplitMarker (cs.drop (i + finalMarker.length)) := by
      rw [pySplitMarker_eq, h]
    have hlen : 2 ≤ (pySplitMarker cs).length := by
      rw [hparts, List.length_cons]
      have := List.length_pos.mpr (pySplitMarker_ne_nil (cs.drop (i + finalMarker.length)))
      omega
    have hsec : (pySplitMarker cs).getD 1 [] = rankingSection cs := by
      rw [hparts]
      show (pySplitMarker (cs.drop (i + finalMarker.length))).getD 0 [] = _
      have hh : (pySplitMarker (cs.drop (i + finalMarker.length))).getD 0 [] =
          (pySplitMarker (cs.drop (i + finalMarker.length))).headD [] := by
        rcases hps : pySplitMarker (cs.drop (i + finalMarker.length)) with _ | ⟨a, l⟩
        · rfl
        · rfl
      rw [hh, pySplitMarker_head, rankingSection, h]
    unfold parseRankingChars
    rw [hcon]
    simp only [if_true]
    rw [if_pos hlen, hsec]
  · intro h
    have hcon : containsSub finalMarker cs = false := by
      rw [containsSub, h]
      rfl
    unfold parseRankingChars
    rw [hcon]
    simp only [Bool.false_eq_true, if_false]

/-- Witness for C5 on a well-formed ranking text with numbered lines. -/
theorem parse_ranking_from_text_spec_witness :
    parseRankingChars
        "FINAL RANKING: 1. Response B 2. Response A".toList =
      (if !(findAllNumbered (rankingSection
            "FINAL RANKING: 1. Response B 2. Response A".toList)).isEmpty then
        (findAllNumbered (rankingSection
          "FINAL RANKING: 1. Response B 2. Response A".toList)).map searchRespGroup
       else findAllResp (rankingSection
          "FINAL RANKING: 1. Response B 2. Response A".toList)) :=
  (parse_ranking_from_text_spec _).1 0 (by decide)

/-- Counterexample for C5 as stated: when the marker occurs twice,
`split()[1]` is only the text between the two markers, not "the text
after the marker"; here the numbered match `1. Response A` lives after the
second marker, the claim predicts `["Response A"]`, and the code returns
`[]`. -/
theorem parse_ranking_second_marker :
    parse_ranking_from_text "FINAL RANKING: junk FINAL RANKING: 1. Response A" = [] ∧
    (findAllNumbered
        ("FINAL RANKING: junk FINAL RANKING: 1. Response A".toList.drop
          ((findSub finalMarker
            "FINAL RANKING: junk FINAL RANKING: 1. Response A".toList).getD 0 +
            finalMarker.length))).map (fun m => String.mk (searchRespGroup m)) =
      ["Response A"] := by
  constructor
  · decide
  · decide

/-! ## Claim C4 — confidence-suffix round trip -/

/-- The appended suffix of the claim's round trip: `"CONFIDENCE: " ++ ds ++ "/10"`. -/
def confSuffix (ds : List Char) : List Char :=
  ['C','O','N','F','I','D','E','N','C','E',':',' '] ++ ds ++ ['/','1','0']

theorem not_space_of_digit {c : Char} (h : isDigitCh c = true) : isPySpace c = false := by
  simp only [isDigitCh, Bool.and_eq_true, decide_eq_true_eq] at h
  obtain ⟨h1, h2⟩ := h
  simp only [isPySpace, Bool.or_eq_false_iff, beq_eq_false_iff_ne, ne_eq]
  refine ⟨⟨⟨⟨⟨?_, ?_⟩, ?_⟩, ?_⟩, ?_⟩, ?_⟩ <;> rintro rfl <;> revert h1 <;> decide

theorem takeWhile_append_of_all {p : Char → Bool} {l : List Char} (r : List Char)
    (h : ∀ c ∈ l, p c = true) : (l ++ r).takeWhile p = l ++ r.takeWhile p := by
  induction l with
  | nil => rfl
  | cons x t ih =>
    simp only [List.cons_append, List.takeWhile_cons, h x (List.mem_cons_self x t),
      if_true, ih (fun c hc => h c (List.mem_cons_of_mem _ hc))]

theorem dropWhile_append_of_all {p : Char → Bool} {l : List Char} (r : List Char)
    (h : ∀ c ∈ l, p c = true) : (l ++ r).dropWhile p = r.dropWhile p := by
  induction l with
  | nil => rfl
  | cons x t ih =>
    simp only [List.cons_append, List.dropWhile_cons, h x (List.mem_cons_self x t),
      if_true]
    exact ih (fun c hc => h c (List.mem_cons_of_mem _ hc))

theorem dropWhile_append_left {p : Char → Bool} (a w : List Char)
    (hne : a.dropWhile p ≠ []) : (a ++ w).dropWhile p = a.dropWhile p ++ w := by
  induction a with
  | nil => exact absurd rfl hne
  | cons x t ih =>
    rw [List.dropWhile_cons] at hne
    rw [List.cons_append, List.dropWhile_cons, List.dropWhile_cons]
    by_cases hpx : p x = true
    · rw [if_pos hpx]
      rw [if_pos hpx] at hne
      rw [if_pos hpx]
      exact ih hne
    · rw [if_neg hpx, if_neg hpx, List.cons_append]

theorem pyStrip_append_ws (a w : List Char) (h : ∀ c ∈ w, isPySpace c = true) :
    pyStrip (a ++ w) = pyStrip a := by
  unfold pyStrip
  rcases hx : a.dropWhile isPySpace with _ | ⟨y, t⟩
  · have hall : ∀ c ∈ a ++ w, isPySpace c = true := by
      intro c hcc
      rcases List.mem_append.mp hcc with hca | hcw
      · exact List.dropWhile_eq_nil_iff.mp hx c hca
      · exact h c hcw
    rw [List.dropWhile_eq_nil_iff.mpr hall]
  · rw [dropWhile_append_left a w (by rw [hx]; exact List.cons_ne_nil y t)]
    rw [hx]
    rw [List.reverse_append]
    rw [dropWhile_append_of_all _ (fun c hc => h c (List.mem_reverse.mp hc))]

theorem digitGroup10_suffix (ds : List Char) (hne : ds ≠ [])
    (hdig : ∀ c ∈ ds, isDigitCh c = true) :
    digitGroup10 (ds ++ ['/','1','0']) = some (digitsVal ds) := by
  simp only [digitGroup10]
  rw [takeWhile_append_of_all _ hdig, dropWhile_append_of_all _ hdig]
  have h1 : List.takeWhile isDigitCh ['/','1','0'] = [] := by decide
  have h2 : List.dropWhile isDigitCh ['/','1','0'] = ['/','1','0'] := by decide
  rw [h1, h2, List.append_nil]
  rcases ds with _ | ⟨d, t⟩
  · exact absurd rfl hne
  · rw [if_neg (by simp)]
    rw [if_pos (by decide)]

theorem dropStars2_of_ne_star {c : Char} (r : List Char) (h : c ≠ '*') :
    dropStars2 (c :: r) = c :: r := by
  unfold dropStars2
  split
  · rename_i heq
    injection heq with h1 h2
    exact absurd h1 h
  · rename_i heq
    injection heq with h1 h2
    exact absurd h1 h
  · rfl

theorem dropStars2_star_of_ne_star {z : Char} (r : List Char) (h : z ≠ '*') :
    dropStars2 ('*' :: z :: r) = z :: r := by
  unfold dropStars2
  split
  · rename_i heq
    injection heq with h1 h2
    injection h2 with h3 h4
    exact absurd h3 h
  · rename_i heq
    injection heq with h1 h2
    rw [h2]
  · rename_i h1 h2
    exact absurd rfl (h2 (z :: r))

theorem p1_at_boundary (pre ds : List Char) (hpre : ∀ c ∈ pre, c = '\n')
    (hne : ds ≠ []) (hdig : ∀ c ∈ ds, isDigitCh c = true) :
    p1MatchAt (pre ++ confSuffix ds) = some (digitsVal ds) := by
  have hnl : ∀ c ∈ pre, (c == '\n') = true := by
    intro c hcc
    rw [hpre c hcc]
    rfl
  have h0 : p1MatchAt (pre ++ confSuffix ds) =
      (match lcMatch ['c','o','n','f','i','d','e','n','c','e']
          (dropStars2 ((pre ++ confSuffix ds).dropWhile (· == '\n'))) with
      | none => none
      | some s3 => digitGroup10 ((dropStars2 (dropColon s3)).dropWhile isPySpace)) := rfl
  rw [h0]
  rw [dropWhile_append_of_all _ hnl]
  have h2 : dropStars2 ((confSuffix ds).dropWhile (· == '\n')) = confSuffix ds := rfl
  rw [h2]
  have h3 : lcMatch ['c','o','n','f','i','d','e','n','c','e'] (confSuffix ds) =
      some (':' :: ' ' :: (ds ++ ['/','1','0'])) := rfl
  rw [h3]
  show digitGroup10
      ((dropStars2 (dropColon (':' :: ' ' :: (ds ++ ['/','1','0'])))).dropWhile isPySpace) =
    some (digitsVal ds)
  have h4 : (dropStars2 (dropColon (':' :: ' ' :: (ds ++ ['/','1','0'])))).dropWhile
        isPySpace = (ds ++ ['/','1','0']).dropWhile isPySpace := by
    show (' ' :: (ds ++ ['/','1','0'])).dropWhile isPySpace = _
    rw [List.dropWhile_cons, if_pos (by decide)]
  rw [h4]
  have h5 : (ds ++ ['/','1','0']).dropWhile isPySpace = ds ++ ['/','1','0'] := by
    rcases ds with _ | ⟨d, t⟩
    · exact absurd rfl hne
    · rw [List.cons_append, List.dropWhile_cons,
        if_neg (by rw [not_space_of_digit (hdig d (List.mem_cons_self d t))]; simp)]
  rw [h5]
  exact digitGroup10_suffix ds hne hdig

theorem lcMatch_append_split (lit : List Char) :
    ∀ (a b r : List Char), lcMatch lit (a ++ b) = some r →
      (∃ a', r = a' ++ b) ∨
        (a.length < lit.length ∧ lcMatch (lit.drop a.length) b = some r) := by
  induction lit with
  | nil =>
    intro a b r h
    have h' : some (a ++ b) = some r := h
    exact Or.inl ⟨a, (Option.some.inj h').symm⟩
  | cons l lt ih =>
    intro a b r h
    rcases a with _ | ⟨x, a'⟩
    · exact Or.inr ⟨by simp, h⟩
    · rw [List.cons_append] at h
      have h' : (if asciiLower x == l then lcMatch lt (a' ++ b) else none) = some r := h
      by_cases hx : (asciiLower x == l) = true
      · rw [if_pos hx] at h'
        rcases ih a' b r h' with ⟨a'', hr⟩ | ⟨hlen, hm⟩
        · exact Or.inl ⟨a'', hr⟩
        · refine Or.inr ⟨?_, hm⟩
          simp only [List.length_cons]
          omega
      · rw [if_neg hx] at h'
        exact Option.noConfusion h'

theorem dropColon_of_ne_colon {c : Char} (r : List Char) (h : c ≠ ':') :
    dropColon (c :: r) = c :: r := by
  unfold dropColon
  split
  · rename_i heq
    injection heq with h1 h2
    exact absurd h1 h
  · rfl

theorem dropColon_append_confSuffix (Z ds : List Char) :
    ∃ Z', dropColon (Z ++ confSuffix ds) = Z' ++ confSuffix ds := by
  rcases Z with _ | ⟨z, Z1⟩
  · exact ⟨[], rfl⟩
  · by_cases hz : z = ':'
    · subst hz
      exact ⟨Z1, rfl⟩
    · refine ⟨z :: Z1, ?_⟩
      rw [List.cons_append]
      exact dropColon_of_ne_colon _ hz

theorem dropStars2_append_confSuffix (Z ds : List Char) :
    ∃ Z', dropStars2 (Z ++ confSuffix ds) = Z' ++ confSuffix ds := by
  rcases Z with _ | ⟨z1, Z1⟩
  · exact ⟨[], rfl⟩
  · by_cases h1 : z1 = '*'
    · subst h1
      rcases Z1 with _ | ⟨z2, Z2⟩
      · exact ⟨[], rfl⟩
      · by_cases h2 : z2 = '*'
        · subst h2
          exact ⟨Z2, rfl⟩
        · refine ⟨z2 :: Z2, ?_⟩
          rw [List.cons_append, List.cons_append]
          exact dropStars2_star_of_ne_star _ h2
    · refine ⟨z1 :: Z1, ?_⟩
      rw [List.cons_append]
      exact dropStars2_of_ne_star _ h1

theorem dropWhile_space_append_confSuffix (Z ds : List Char) :
    ∃ Z', (Z ++ confSuffix ds).dropWhile isPySpace = Z' ++ confSuffix ds := by
  rcases hz : Z.dropWhile isPySpace with _ | ⟨y, t⟩
  · refine ⟨[], ?_⟩
    rw [dropWhile_append_of_all _ (fun c hc => List.dropWhile_eq_nil_iff.mp hz c hc)]
    rfl
  · refine ⟨y :: t, ?_⟩
    rw [dropWhile_append_left _ _ (by rw [hz]; exact List.cons_ne_nil _ _), hz]

theorem takeWhile_append_left {p : Char → Bool} (a w : List Char)
    (hne : a.dropWhile p ≠ []) : (a ++ w).takeWhile p = a.takeWhile p := by
  induction a with
  | nil => exact absurd rfl hne
  | cons x t ih =>
    rw [List.dropWhile_cons] at hne
    rw [List.cons_append, List.takeWhile_cons, List.takeWhile_cons]
    by_cases hpx : p x = true
    · rw [if_pos hpx, if_pos hpx]
      rw [if_pos hpx] at hne
      rw [ih hne]
    · rw [if_neg hpx, if_neg hpx]

theorem slashMatch_shape (Z ds : List Char) :
    ∃ Z', (match Z ++ confSuffix ds with
      | '/' :: t => t
      | t => t) = Z' ++ confSuffix ds := by
  rcases Z with _ | ⟨z, Z1⟩
  · exact ⟨[], rfl⟩
  · by_cases hz : z = '/'
    · subst hz
      exact ⟨Z1, rfl⟩
    · refine ⟨z :: Z1, ?_⟩
      rw [List.cons_append]
      split
      · rename_i t heq
        injection heq with h1 h2
        exact absurd h1 hz
      · rfl

theorem ten10_fail (Z ds : List Char) :
    (match (Z ++ confSuffix ds).dropWhile isPySpace with
      | '1' :: '0' :: r4 => r4.all isPySpace
      | _ => false) = false := by
  obtain ⟨Z3, hZ3⟩ := dropWhile_space_append_confSuffix Z ds
  rw [hZ3]
  split
  · rename_i r4 heq
    rcases Z3 with _ | ⟨a, Z4⟩
    · rw [List.nil_append] at heq
      have hS : confSuffix ds = 'C' :: ('O' :: 'N' :: 'F' :: 'I' :: 'D' :: 'E' :: 'N' ::
          'C' :: 'E' :: ':' :: ' ' :: (ds ++ ['/','1','0'])) := rfl
      rw [hS] at heq
      injection heq with h1 h2
      exact absurd h1 (by decide)
    · rcases Z4 with _ | ⟨b, Z5⟩
      · rw [List.cons_append, List.nil_append] at heq
        injection heq with h1 h2
        have hS : confSuffix ds = 'C' :: ('O' :: 'N' :: 'F' :: 'I' :: 'D' :: 'E' :: 'N' ::
            'C' :: 'E' :: ':' :: ' ' :: (ds ++ ['/','1','0'])) := rfl
        rw [hS] at h2
        injection h2 with h3 h4
        exact absurd h3 (by decide)
      · rw [List.cons_append, List.cons_append] at heq
        injection heq with h1 h2
        injection h2 with h3 h4
        rw [← h4, List.all_append]
        rw [show (confSuffix ds).all isPySpace = false from rfl, Bool.and_false]
  · rfl

theorem tailSlash10_append_confSuffix (W ds : List Char) :
    tailSlash10 (W ++ confSuffix ds) = false := by
  have h0 : tailSlash10 (W ++ confSuffix ds) =
      (match (match (W ++ confSuffix ds).dropWhile isPySpace with
              | '/' :: t => t
              | t => t).dropWhile isPySpace with
       | '1' :: '0' :: r4 => r4.all isPySpace
       | _ => false) := rfl
  rw [h0]
  obtain ⟨Z1, hZ1⟩ := dropWhile_space_append_confSuffix W ds
  rw [hZ1]
  obtain ⟨Z2, hZ2⟩ := slashMatch_shape Z1 ds
  rw [hZ2]
  exact ten10_fail Z2 ds

theorem digitGroup10_append_confSuffix (Z ds : List Char) :
    digitGroup10 (Z ++ confSuffix ds) = none := by
  simp only [digitGroup10]
  rcases hz : Z.dropWhile isDigitCh with _ | ⟨y, t⟩
  · have hall : ∀ c ∈ Z, isDigitCh c = true := fun c hc =>
      List.dropWhile_eq_nil_iff.mp hz c hc
    rw [takeWhile_append_of_all _ hall, dropWhile_append_of_all _ hall]
    rw [show (confSuffix ds).takeWhile isDigitCh = [] from rfl,
      show (confSuffix ds).dropWhile isDigitCh = confSuffix ds from rfl, List.append_nil]
    rcases Z with _ | ⟨a, Z1⟩
    · rfl
    · rw [if_neg (by simp)]
      have hts : tailSlash10 (confSuffix ds) = false := by
        have h := tailSlash10_append_confSuffix [] ds
        rwa [List.nil_append] at h
      rw [hts]
      simp only [Bool.false_eq_true, if_false]
      rw [show (confSuffix ds).all isPySpace = false from rfl, Bool.and_false]
      simp only [Bool.false_eq_true, if_false]
  · rw [takeWhile_append_left _ _ (by rw [hz]; exact List.cons_ne_nil _ _)]
    rw [dropWhile_append_left _ _ (by rw [hz]; exact List.cons_ne_nil _ _)]
    rw [hz]
    rcases hDt : Z.takeWhile isDigitCh with _ | ⟨d, D1⟩
    · rfl
    · rw [if_neg (by simp)]
      rw [tailSlash10_append_confSuffix (y :: t) ds]
      simp only [Bool.false_eq_true, if_false]
      rw [List.all_append, show (confSuffix ds).all isPySpace = false from rfl,
        Bool.and_false, Bool.and_false]
      simp only [Bool.false_eq_true, if_false]

theorem confMatchChain_none (V : List Char) (hV : V ≠ []) (ds : List Char) :
    (match lcMatch ['c','o','n','f','i','d','e','n','c','e'] (V ++ confSuffix ds) with
      | none => none
      | some s3 => digitGroup10 ((dropStars2 (dropColon s3)).dropWhile isPySpace)) =
      none := by
  rcases hm : lcMatch ['c','o','n','f','i','d','e','n','c','e'] (V ++ confSuffix ds)
    with _ | r
  · rfl
  · show digitGroup10 ((dropStars2 (dropColon r)).dropWhile isPySpace) = none
    rcases lcMatch_append_split _ V _ r hm with ⟨a', hr⟩ | ⟨hlt, hm'⟩
    · subst hr
      obtain ⟨Z1, hZ1⟩ := dropColon_append_confSuffix a' ds
      rw [hZ1]
      obtain ⟨Z2, hZ2⟩ := dropStars2_append_confSuffix Z1 ds
      rw [hZ2]
      obtain ⟨Z3, hZ3⟩ := dropWhile_space_append_confSuffix Z2 ds
      rw [hZ3]
      exact digitGroup10_append_confSuffix Z3 ds
    · exfalso
      have h1 : 1 ≤ V.length := List.length_pos.mpr hV
      have h9 : V.length < 10 := by simpa using hlt
      have hcases : V.length = 1 ∨ V.length = 2 ∨ V.length = 3 ∨ V.length = 4 ∨
          V.length = 5 ∨ V.length = 6 ∨ V.length = 7 ∨ V.length = 8 ∨
          V.length = 9 := by omega
      rcases hcases with h | h | h | h | h | h | h | h | h
      · rw [h, show lcMatch (List.drop 1 ['c','o','n','f','i','d','e','n','c','e'])
            (confSuffix ds) = none from rfl] at hm'
        exact Option.noConfusion hm'
      · rw [h, show lcMatch (List.drop 2 ['c','o','n','f','i','d','e','n','c','e'])
            (confSuffix ds) = none from rfl] at hm'
        exact Option.noConfusion hm'
      · rw [h, show lcMatch (List.drop 3 ['c','o','n','f','i','d','e','n','c','e'])
            (confSuffix ds) = none from rfl] at hm'
        exact Option.noConfusion hm'
      · rw [h, show lcMatch (List.drop 4 ['c','o','n','f','i','d','e','n','c','e'])
            (confSuffix ds) = none from rfl] at hm'
        exact Option.noConfusion hm'
      · rw [h, show lcMatch (List.drop 5 ['c','o','n','f','i','d','e','n','c','e'])
            (confSuffix ds) = none from rfl] at hm'
        exact Option.noConfusion hm'
      · rw [h, show lcMatch (List.drop 6 ['c','o','n','f','i','d','e','n','c','e'])
            (confSuffix ds) = none from rfl] at hm'
        exact Option.noConfusion hm'
      · rw [h, show lcMatch (List.drop 7 ['c','o','n','f','i','d','e','n','c','e'])
            (confSuffix ds) = none from rfl] at hm'
        exact Option.noConfusion hm'
      · rw [h, show lcMatch (List.drop 8 ['c','o','n','f','i','d','e','n','c','e'])
            (confSuffix ds) = none from rfl] at hm'
        exact Option.noConfusion hm'
      · rw [h, show lcMatch (List.drop 9 ['c','o','n','f','i','d','e','n','c','e'])
            (confSuffix ds) = none from rfl] at hm'
        exact Option.noConfusion hm'

theorem p1_fail (Y ds : List Char)
    (hstarY : Y.getLast? ≠ some '*') (hnot : ¬ ∀ c ∈ Y, c = '\n') :
    p1MatchAt (Y ++ confSuffix ds) = none := by
  have h0 : p1MatchAt (Y ++ confSuffix ds) =
      (match lcMatch ['c','o','n','f','i','d','e','n','c','e']
          (dropStars2 ((Y ++ confSuffix ds).dropWhile (· == '\n'))) with
      | none => none
      | some s3 => digitGroup10 ((dropStars2 (dropColon s3)).dropWhile isPySpace)) := rfl
  rw [h0]
  have hY1ne : Y.dropWhile (· == '\n') ≠ [] := by
    intro hnil
    apply hnot
    intro c hcc
    exact eq_of_beq (List.dropWhile_eq_nil_iff.mp hnil c hcc)
  have hsplit : (Y ++ confSuffix ds).dropWhile (· == '\n') =
      Y.dropWhile (· == '\n') ++ confSuffix ds :=
    dropWhile_append_left Y (confSuffix ds) hY1ne
  rw [hsplit]
  have hlast : Y.getLast? = (Y.dropWhile (· == '\n')).getLast? := by
    conv_lhs => rw [← List.takeWhile_append_dropWhile (fun c => c == '\n') Y]
    rw [List.getLast?_append_of_ne_nil _ hY1ne]
  rcases hY1 : Y.dropWhile (· == '\n') with _ | ⟨y, Y2⟩
  · exact absurd hY1 hY1ne
  · rw [hY1] at hlast
    by_cases hy : y = '*'
    · subst hy
      rcases Y2 with _ | ⟨z, Y3⟩
      · exact absurd (hlast.trans rfl) hstarY
      · by_cases hz : z = '*'
        · subst hz
          rcases Y3 with _ | ⟨w, Y4⟩
          · exact absurd (hlast.trans rfl) hstarY
          · have hds2 : dropStars2 (('*' :: '*' :: w :: Y4) ++ confSuffix ds) =
                (w :: Y4) ++ confSuffix ds := rfl
            rw [hds2]
            exact confMatchChain_none (w :: Y4) (List.cons_ne_nil _ _) ds
        · have hds2 : dropStars2 (('*' :: z :: Y3) ++ confSuffix ds) =
              z :: (Y3 ++ confSuffix ds) := by
            rw [List.cons_append, List.cons_append]
            exact dropStars2_star_of_ne_star _ hz
          rw [hds2, ← List.cons_append]
          exact confMatchChain_none (z :: Y3) (List.cons_ne_nil _ _) ds
    · have hds2 : dropStars2 ((y :: Y2) ++ confSuffix ds) =
          y :: (Y2 ++ confSuffix ds) := by
        rw [List.cons_append]
        exact dropStars2_of_ne_star _ hy
      rw [hds2, ← List.cons_append]
      exact confMatchChain_none (y :: Y2) (List.cons_ne_nil _ _) ds

theorem reSearch_p1_boundary (X ds : List Char) (hne : ds ≠ [])
    (hdig : ∀ c ∈ ds, isDigitCh c = true) (hstar : X.getLast? ≠ some '*') :
    ∃ i, i ≤ X.length ∧ (∀ c ∈ X.drop i, c = '\n') ∧
      reSearch p1MatchAt (X ++ confSuffix ds) = some (i, digitsVal ds) := by
  induction X with
  | nil =>
    refine ⟨0, le_refl 0, by intro c hcc; exact absurd hcc (List.not_mem_nil c), ?_⟩
    have hm := p1_at_boundary [] ds (by intro c hcc; cases hcc) hne hdig
    rw [List.nil_append] at hm ⊢
    have hstep : reSearch p1MatchAt (confSuffix ds) =
        match p1MatchAt (confSuffix ds) with
        | some n => some (0, n)
        | none =>
            (reSearch p1MatchAt (List.drop 1 (confSuffix ds))).map
              (fun p => (p.1 + 1, p.2)) := rfl
    rw [hstep, hm]
  | cons x t ih =>
    by_cases hall : ∀ c ∈ x :: t, c = '\n'
    · refine ⟨0, Nat.zero_le _, hall, ?_⟩
      have hm := p1_at_boundary (x :: t) ds hall hne hdig
      rw [List.cons_append] at hm ⊢
      have hstep : reSearch p1MatchAt (x :: (t ++ confSuffix ds)) =
          match p1MatchAt (x :: (t ++ confSuffix ds)) with
          | some n => some (0, n)
          | none =>
              (reSearch p1MatchAt (t ++ confSuffix ds)).map
                (fun p => (p.1 + 1, p.2)) := rfl
      rw [hstep, hm]
    · have hstar' : t.getLast? ≠ some '*' := by
        rcases ht : t with _ | ⟨a, l⟩
        · simp
        · rw [ht] at hstar
          rw [List.getLast?_cons_cons] at hstar
          exact hstar
      obtain ⟨i, hile, hdrop, hsearch⟩ := ih hstar'
      refine ⟨i + 1, by simpa using Nat.succ_le_succ hile, by simpa using hdrop, ?_⟩
      have hfail := p1_fail (x :: t) ds hstar hall
      rw [List.cons_append] at hfail ⊢
      have hstep : reSearch p1MatchAt (x :: (t ++ confSuffix ds)) =
          match p1MatchAt (x :: (t ++ confSuffix ds)) with
          | some n => some (0, n)
          | none =>
              (reSearch p1MatchAt (t ++ confSuffix ds)).map
                (fun p => (p.1 + 1, p.2)) := rfl
      rw [hstep, hfail]
      show (reSearch p1MatchAt (t ++ confSuffix ds)).map (fun p => (p.1 + 1, p.2)) =
        some (i + 1, digitsVal ds)
      rw [hsearch]
      rfl

theorem parseConfChars_cases (cs : List Char) :
    (∃ i n, parseConfChars cs = (pyStrip (cs.take i), some (pyClamp n))) ∨
      parseConfChars cs = (cs, none) := by
  unfold parseConfChars
  split
  · exact Or.inr rfl
  · rcases h1 : reSearch p1MatchAt cs with _ | ⟨i, n⟩
    · rcases h2 : reSearch p2MatchAt cs with _ | ⟨i, n⟩
      · rcases h3 : reSearch p3MatchAt cs with _ | ⟨i, n⟩
        · rcases h4 : reSearch p4MatchAt cs with _ | ⟨i, n⟩
          · exact Or.inr rfl
          · exact Or.inl ⟨i, n, rfl⟩
        · exact Or.inl ⟨i, n, rfl⟩
      · exact Or.inl ⟨i, n, rfl⟩
    · exact Or.inl ⟨i, n, rfl⟩

/-- C4 (amended): appending `"CONFIDENCE: " ++ ds ++ "/10"` to any text
`X` not ending in `*` (a trailing asterisk would be absorbed by the
pattern's `\*?\*?`) parses to the pair of `X` *stripped of leading and
trailing whitespace* (`.strip()`, not `X` itself) and the digit value
clamped to `[1, 10]`; when no pattern matches, the text is returned
unchanged and the confidence is `None`; a parsed confidence is never 0. -/
theorem parse_confidence_round_trip (X ds : List Char) (hne : ds ≠ [])
    (hdig : ∀ c ∈ ds, isDigitCh c = true)
    (hstar : X.getLast? ≠ some '*') :
    parseConfChars (X ++ confSuffix ds) =
      (pyStrip X, some (pyClamp (digitsVal ds))) ∧
    (∀ cs : List Char, (parseConfChars cs).2 = none → (parseConfChars cs).1 = cs) ∧
    (∀ cs : List Char, (parseConfChars cs).2 ≠ some 0) := by
  refine ⟨?_, ?_, ?_⟩
  · obtain ⟨i, hile, hdrop, hsearch⟩ := reSearch_p1_boundary X ds hne hdig hstar
    have hemp : (X ++ confSuffix ds).isEmpty = false := by
      rcases X with _ | ⟨x, t⟩
      · rfl
      · rfl
    unfold parseConfChars
    rw [hemp]
    simp only [Bool.false_eq_true, if_false]
    rw [hsearch]
    show (pyStrip ((X ++ confSuffix ds).take i), some (pyClamp (digitsVal ds))) = _
    rw [List.take_append_of_le_length hile]
    have hXi : pyStrip X = pyStrip (X.take i) := by
      conv_lhs => rw [← List.take_append_drop i X]
      exact pyStrip_append_ws (X.take i) (X.drop i)
        (fun c hcc => by rw [hdrop c hcc]; rfl)
    rw [hXi]
  · intro cs h
    rcases parseConfChars_cases cs with ⟨i, n, hx⟩ | hx
    · rw [hx] at h
      exact absurd h (by simp)
    · rw [hx]
  · intro cs
    rcases parseConfChars_cases cs with ⟨i, n, hx⟩ | hx
    · rw [hx]
      intro hzz
      have h0' : pyClamp n = 0 := Option.some.inj hzz
      have h1' : 1 ≤ pyClamp n := le_max_left 1 (min 10 n)
      omega
    · rw [hx]
      simp

/-- Witness for C4 on `X = "hi "` (trailing space) and `ds = "7"`. -/
theorem parse_confidence_round_trip_witness :
    parseConfChars ("hi ".toList ++ confSuffix ['7']) =
      (pyStrip "hi ".toList, some (pyClamp (digitsVal ['7']))) ∧
    ((parseConfChars "x".toList).2 = none → (parseConfChars "x".toList).1 = "x".toList) ∧
    (parseConfChars "x".toList).2 ≠ some 0 := by
  have h := parse_confidence_round_trip "hi ".toList ['7'] (by decide) (by decide)
    (by decide)
  exact ⟨h.1, h.2.1 "x".toList, h.2.2 "x".toList⟩

/-- Counterexample for C4 as stated: the code calls `.strip()` on the text
with the matched suffix removed (parsing.py lines 50, 55), so a text with
trailing whitespace is not returned unchanged: for `X = "hi "` the claim
predicts `("hi ", 7)` but the code returns `("hi", 7)`. -/
theorem parse_confidence_strips_whitespace :
    parse_confidence_from_response "hi CONFIDENCE: 7/10" ≠ ("hi ", some 7) ∧
    parse_confidence_from_response "hi CONFIDENCE: 7/10" = ("hi", some 7) := by
  refine ⟨?_, ?_⟩ <;> decide
